import Mathlib

/-!
LoveRush: the fixed-capacity `List< ItemType, Capacity >` of `List.h`.

A shallow embedding of the class template and its member functions.

* The backing array `ItemType items[Capacity]` is a Lean list of length `cap`;
  an access outside the array is a fault, not a value.
* `IndexType` is `uint8_t`: indices and the count `next` are natural numbers and
  every increment, decrement and narrowing conversion is taken modulo `256`.
* Every loop takes a fuel argument that bounds the number of times its body may
  run; the loop condition itself costs nothing.
* A parameter passed by `const` reference is a value where the function reads it before
  its first write to the array; `insert` reads its parameters after its loop has written
  the array, so there a parameter is either an object outside the array or one inside it
  (`ItemRef`, `IndexRef`), read when the source reads it.
* The element type supplies a value-initialised element (`ItemType()`) and the
  effect of an in-place destructor call on a slot; both are parameters
  (`dflt`, `destroy`).  A trivially destructible element type has `destroy = id`.
-/

namespace LoveRush

/-- Reasons for which a run of a member function does not return. -/
inductive Fault where
  | outOfBounds
  | outOfFuel
  deriving DecidableEq

/-- The data members of `List< ItemType, Capacity >`: the array `items` and the
count `next`. -/
structure ListState (α : Type) where
  items : List α
  next : Nat
  deriving DecidableEq

variable {α : Type}

/-- Array read `items[i]` with `i` already known to be non-negative. -/
def readAt (items : List α) (i : Nat) : Except Fault α :=
  match items[i]? with
  | some v => Except.ok v
  | none => Except.error Fault.outOfBounds

/-- Array write `items[i] = v`. -/
def writeAt (items : List α) (i : Nat) (v : α) : Except Fault (List α) :=
  if i < items.length then Except.ok (items.set i v) else Except.error Fault.outOfBounds

/-- In-place destructor call `(&items[i])->~ItemType()`. -/
def destroyAt (destroy : α → α) (items : List α) (i : Nat) : Except Fault (List α) :=
  match items[i]? with
  | some v => Except.ok (items.set i (destroy v))
  | none => Except.error Fault.outOfBounds

/-- Constructor `List(void) : items(), next(0)`. -/
def new (cap : Nat) (dflt : α) : ListState α :=
  ⟨List.replicate cap dflt, 0⟩

/-- Constant `FirstIndex = 0`. -/
def FirstIndex : Nat := 0

/-- Constant `LastIndex = Capacity - 1`. -/
def LastIndex (cap : Nat) : Nat := (cap + 255) % 256

/-- Member `getCapacity`: `static_cast<IndexType>(Capacity)`. -/
def getCapacity (cap : Nat) : Nat := cap % 256

/-- Member `getFirstIndex`. -/
def getFirstIndex : Nat := FirstIndex % 256

/-- Member `isEmpty`: `next == FirstIndex`. -/
def isEmpty (s : ListState α) : Bool := s.next == FirstIndex

/-- Member `isFull`: `next == getCapacity()`. -/
def isFull (cap : Nat) (s : ListState α) : Bool := s.next == getCapacity cap

/-- Member `getCount`. -/
def getCount (s : ListState α) : Nat := s.next

/-- Member `getLastIndex`: `isEmpty() ? getFirstIndex() : static_cast<IndexType>(next - 1)`. -/
def getLastIndex (s : ListState α) : Nat :=
  if isEmpty s then getFirstIndex else (s.next + 255) % 256

/-- Member `add(const ItemType & item)`. -/
def add (cap : Nat) (s : ListState α) (item : α) : Except Fault (Bool × ListState α) :=
  if isFull cap s then Except.ok (false, s)
  else do
    let items ← writeAt s.items s.next item
    Except.ok (true, ⟨items, (s.next + 1) % 256⟩)

/-- Member `add(ItemType && item)`; the body assigns by copy, as the source does. -/
def addRvalue (cap : Nat) (s : ListState α) (item : α) : Except Fault (Bool × ListState α) :=
  if isFull cap s then Except.ok (false, s)
  else do
    let items ← writeAt s.items s.next item
    Except.ok (true, ⟨items, (s.next + 1) % 256⟩)

/-- The shifting loop shared by `remove` and `removeAt`:
`while (i < next) { items[i] = items[i + 1]; ++i; }` with `next` already decremented. -/
def shiftDownLoop (next : Nat) : Nat → Nat → List α → Except Fault (List α)
  | 0, i, items => if i < next then Except.error Fault.outOfFuel else Except.ok items
  | fuel + 1, i, items =>
    if i < next then do
      let v ← readAt items (i + 1)
      let items1 ← writeAt items i v
      shiftDownLoop next fuel ((i + 1) % 256) items1
    else Except.ok items

/-- The scan of `remove`: `for (i = 0; i < next; ++i) if (items[i] == item) { ... return true; }`
followed by `return false`. -/
def removeLoop [DecidableEq α] (destroy : α → α) (item : α) (shiftFuel : Nat) :
    Nat → Nat → ListState α → Except Fault (Bool × ListState α)
  | 0, i, s => if i < s.next then Except.error Fault.outOfFuel else Except.ok (false, s)
  | fuel + 1, i, s =>
    if i < s.next then do
      let v ← readAt s.items i
      if v = item then do
        let next1 := (s.next + 255) % 256
        let items1 ← shiftDownLoop next1 shiftFuel i s.items
        let items2 ← destroyAt destroy items1 next1
        Except.ok (true, ⟨items2, next1⟩)
      else removeLoop destroy item shiftFuel fuel ((i + 1) % 256) s
    else Except.ok (false, s)

/-- Member `remove(const ItemType & item)`. -/
def remove [DecidableEq α] (destroy : α → α) (fuel : Nat) (s : ListState α) (item : α) :
    Except Fault (Bool × ListState α) :=
  removeLoop destroy item fuel fuel 0 s

/-- Member `removeAt(const IndexType & index)`. -/
def removeAt (destroy : α → α) (fuel : Nat) (s : ListState α) (index : Nat) :
    Except Fault (ListState α) := do
  let next1 := (s.next + 255) % 256
  let items1 ← shiftDownLoop next1 fuel index s.items
  let items2 ← destroyAt destroy items1 next1
  Except.ok ⟨items2, next1⟩

/-- Modelled from the spec: the helper `Move` used by `insert` is not declared in `List.h`.
The spec has the shift of `insert` "copying from the slot below", so an assignment from
`Move(x)` stores the value of `x`. -/
def Move (x : α) : α := x

/-- The loop of `insert`: `for (i = index + 1; i < next; ++i) items[i] = Move(items[i - 1]);`
with `next` already incremented.  The subscript `i - 1` is computed in `int`, so it is `-1`
when `i` is `0`. -/
def insertLoop (next : Nat) : Nat → Nat → List α → Except Fault (List α)
  | 0, i, items => if i < next then Except.error Fault.outOfFuel else Except.ok items
  | fuel + 1, i, items =>
    if i < next then do
      let v ← if i = 0 then Except.error Fault.outOfBounds else readAt items (i - 1)
      let items1 ← writeAt items i (Move v)
      insertLoop next fuel ((i + 1) % 256) items1
    else Except.ok items

/-- What a `const ItemType &` argument refers to: an object outside the array `items`, given
by its value, or the slot `items[k]` of the list itself. -/
inductive ItemRef (α : Type) where
  | value (v : α)
  | slot (k : Nat)

/-- What a `const IndexType &` argument refers to: an object outside the array `items`, given
by its value, or a `uint8_t` object inside the slot `items[k]`, whose value `get` reads off
the slot. -/
inductive IndexRef (α : Type) where
  | value (n : Nat)
  | inSlot (k : Nat) (get : α → Nat)

/-- Read through a `const ItemType &` argument, with the array as it is at that moment. -/
def readItemRef (items : List α) : ItemRef α → Except Fault α
  | ItemRef.value v => Except.ok v
  | ItemRef.slot k => readAt items k

/-- Read through a `const IndexType &` argument, with the array as it is at that moment. -/
def readIndexRef (items : List α) : IndexRef α → Except Fault Nat
  | IndexRef.value n => Except.ok n
  | IndexRef.inSlot k get => do
    let a ← readAt items k
    Except.ok (get a)

/-- Whether an item argument refers to one of the slots `lo + 1, ..., hi` of the list. -/
def ItemRef.inSlots (a : ItemRef α) (lo hi : Nat) : Bool :=
  match a with
  | ItemRef.value _ => false
  | ItemRef.slot k => decide (lo < k ∧ k ≤ hi)

/-- Member `insert(const IndexType & index, const ItemType & item)`.  Both parameters are
references: `index` is read for the start of the loop and again for the final write, and
`item` is read for the final write, after the loop has written the array. -/
def insertRef (cap : Nat) (fuel : Nat) (s : ListState α) (index : IndexRef α)
    (item : ItemRef α) : Except Fault (Bool × ListState α) :=
  if isFull cap s then Except.ok (false, s)
  else do
    let next1 := (s.next + 1) % 256
    let i0 ← readIndexRef s.items index
    let items1 ← insertLoop next1 fuel ((i0 + 1) % 256) s.items
    let idx ← readIndexRef items1 index
    let v ← readItemRef items1 item
    let items2 ← writeAt items1 idx v
    Except.ok (true, ⟨items2, next1⟩)

/-- The call `insert(index, item)` whose two arguments are objects outside the array
(literals, temporaries, locals), given by their values: `insertRef` at such arguments. -/
def insert (cap : Nat) (fuel : Nat) (s : ListState α) (index : Nat) (item : α) :
    Except Fault (Bool × ListState α) :=
  insertRef cap fuel s (IndexRef.value index) (ItemRef.value item)

/-- The shrinking loop of `resize`:
`for (IndexType i = next - 1; i >= newSize; --i) (&items[i])->~ItemType();`. -/
def resizeShrinkLoop (destroy : α → α) (newSize : Nat) : Nat → Nat → List α → Except Fault (List α)
  | 0, i, items => if i ≥ newSize then Except.error Fault.outOfFuel else Except.ok items
  | fuel + 1, i, items =>
    if i ≥ newSize then do
      let items1 ← destroyAt destroy items i
      resizeShrinkLoop destroy newSize fuel ((i + 255) % 256) items1
    else Except.ok items

/-- The growing loop of `resize`:
`for (IndexType i = next; i < newSize; ++i) items[i] = ItemType();`. -/
def resizeGrowLoop (dflt : α) (newSize : Nat) : Nat → Nat → List α → Except Fault (List α)
  | 0, i, items => if i < newSize then Except.error Fault.outOfFuel else Except.ok items
  | fuel + 1, i, items =>
    if i < newSize then do
      let items1 ← writeAt items i dflt
      resizeGrowLoop dflt newSize fuel ((i + 1) % 256) items1
    else Except.ok items

/-- Member `resize(const IndexType & newSize)`. -/
def resize (destroy : α → α) (dflt : α) (cap : Nat) (fuel : Nat) (s : ListState α)
    (newSize : Nat) : Except Fault (Bool × ListState α) :=
  if newSize = getCount s then Except.ok (true, s)
  else if newSize > getCapacity cap then Except.ok (false, s)
  else if newSize < getCount s then do
    let items1 ← resizeShrinkLoop destroy newSize fuel ((s.next + 255) % 256) s.items
    Except.ok (true, ⟨items1, newSize⟩)
  else do
    let items1 ← resizeGrowLoop dflt newSize fuel s.next s.items
    Except.ok (true, ⟨items1, newSize⟩)

/-- The loop of `clear`: `for (i = 0; i < next; ++i) (&items[i])->~ItemType();`. -/
def clearLoop (destroy : α → α) (next : Nat) : Nat → Nat → List α → Except Fault (List α)
  | 0, i, items => if i < next then Except.error Fault.outOfFuel else Except.ok items
  | fuel + 1, i, items =>
    if i < next then do
      let items1 ← destroyAt destroy items i
      clearLoop destroy next fuel ((i + 1) % 256) items1
    else Except.ok items

/-- Member `clear`. -/
def clear (destroy : α → α) (fuel : Nat) (s : ListState α) : Except Fault (ListState α) := do
  let items1 ← clearLoop destroy s.next fuel 0 s.items
  Except.ok ⟨items1, 0⟩

/-- Conversion of an `IndexType` value to `IndexOfType` (`uint8_t` to `int8_t`). -/
def toIndexOfType (i : Nat) : Int :=
  if i % 256 < 128 then ((i % 256 : Nat) : Int) else ((i % 256 : Nat) : Int) - 256

/-- The loop of `indexOf`: `for (i = 0; i < next; ++i) if (items[i] == item) return i;`
followed by `return -1`. -/
def indexOfLoop [DecidableEq α] (s : ListState α) (item : α) : Nat → Nat → Except Fault Int
  | 0, i => if i < s.next then Except.error Fault.outOfFuel else Except.ok (-1)
  | fuel + 1, i =>
    if i < s.next then do
      let v ← readAt s.items i
      if v = item then Except.ok (toIndexOfType i)
      else indexOfLoop s item fuel ((i + 1) % 256)
    else Except.ok (-1)

/-- Member `indexOf(const ItemType & item)`. -/
def indexOf [DecidableEq α] (fuel : Nat) (s : ListState α) (item : α) : Except Fault Int :=
  indexOfLoop s item fuel 0

/-- Member `contains(const ItemType & item)`: `indexOf(item) != -1`. -/
def contains [DecidableEq α] (fuel : Nat) (s : ListState α) (item : α) : Except Fault Bool := do
  let r ← indexOf fuel s item
  Except.ok (decide (r ≠ -1))

/-- Member `operator []`: a reference to `items[index]`, read here. -/
def index (s : ListState α) (i : Nat) : Except Fault α := readAt s.items i

/-- The live content: the slots `[0, next)`. -/
def live (s : ListState α) : List α := s.items.take s.next

/-- The state invariant: the array has `Capacity` slots and the count is at most
`Capacity`. -/
def Valid (cap : Nat) (s : ListState α) : Prop :=
  s.items.length = cap ∧ getCount s ≤ cap

/-- A run of `add` calls, one for each element of `xs` in order, starting from `s`.
Returns, for every call, its result and the count right after it, and the final state. -/
def addAll (cap : Nat) : ListState α → List α → Except Fault (List (Bool × Nat) × ListState α)
  | s, [] => Except.ok ([], s)
  | s, x :: xs => do
    let r ← add cap s x
    let rest ← addAll cap r.2 xs
    Except.ok ((r.1, getCount r.2) :: rest.1, rest.2)

/-! ## Array accesses inside the array -/

/-- With arguments outside the array, `insert` reads them as plain values. -/
theorem insert_of_values (cap fuel : Nat) (s : ListState α) (index : Nat) (item : α) :
    insert cap fuel s index item =
      (if isFull cap s then Except.ok (false, s)
      else do
        let next1 := (s.next + 1) % 256
        let items1 ← insertLoop next1 fuel ((index + 1) % 256) s.items
        let items2 ← writeAt items1 index item
        Except.ok (true, ⟨items2, next1⟩)) := by
  unfold insert insertRef
  cases isFull cap s
  · simp only [Bool.false_eq_true, if_false, readIndexRef, readItemRef, bind, Except.bind]
  · rfl

theorem readAt_of_lt (items : List α) (i : Nat) (h : i < items.length) :
    readAt items i = Except.ok items[i] := by
  simp [readAt, List.getElem?_eq_getElem h]

theorem writeAt_of_lt (items : List α) (i : Nat) (v : α) (h : i < items.length) :
    writeAt items i v = Except.ok (items.set i v) := by
  simp [writeAt, h]

theorem destroyAt_of_lt (destroy : α → α) (items : List α) (i : Nat) (h : i < items.length) :
    destroyAt destroy items i = Except.ok (items.set i (destroy items[i])) := by
  simp [destroyAt, List.getElem?_eq_getElem h]

theorem destroyAt_of_le (destroy : α → α) (items : List α) (i : Nat) (h : items.length ≤ i) :
    destroyAt destroy items i = Except.error Fault.outOfBounds := by
  simp [destroyAt, List.getElem?_eq_none h]

theorem take_set_of_le (l : List α) (n m : Nat) (a : α) (h : m ≤ n) :
    (l.set n a).take m = l.take m := by
  apply List.ext_getElem?
  intro j
  by_cases hj : j < m
  · have hne : n ≠ j := by omega
    simp [List.getElem?_take, hj, List.getElem?_set_ne hne]
  · simp [List.getElem?_take, hj]

theorem isFull_iff (cap : Nat) (s : ListState α) (hcap : cap < 128) :
    isFull cap s = true ↔ s.next = cap := by
  have h : cap % 256 = cap := Nat.mod_eq_of_lt (by omega)
  simp [isFull, getCapacity, h]

/-! ## `add` -/

theorem isFull_eq_false (cap : Nat) (s : ListState α) (hcap : cap < 128) (hnf : s.next < cap) :
    isFull cap s = false := by
  cases h : isFull cap s
  · rfl
  · have := (isFull_iff cap s hcap).mp h
    omega

theorem add_eq_of_not_full (cap : Nat) (s : ListState α) (item : α) (hcap : cap < 128)
    (hlen : s.items.length = cap) (hnf : s.next < cap) :
    add cap s item = Except.ok (true, ⟨s.items.set s.next item, s.next + 1⟩) := by
  have hlt : s.next < s.items.length := by omega
  have hmod : (s.next + 1) % 256 = s.next + 1 := Nat.mod_eq_of_lt (by omega)
  simp [add, isFull_eq_false cap s hcap hnf, writeAt_of_lt _ _ _ hlt, hmod, bind, Except.bind]

theorem addRvalue_eq_of_not_full (cap : Nat) (s : ListState α) (item : α) (hcap : cap < 128)
    (hlen : s.items.length = cap) (hnf : s.next < cap) :
    addRvalue cap s item = Except.ok (true, ⟨s.items.set s.next item, s.next + 1⟩) := by
  have hlt : s.next < s.items.length := by omega
  have hmod : (s.next + 1) % 256 = s.next + 1 := Nat.mod_eq_of_lt (by omega)
  simp [addRvalue, isFull_eq_false cap s hcap hnf, writeAt_of_lt _ _ _ hlt, hmod, bind,
    Except.bind]

theorem add_eq_of_full (cap : Nat) (s : ListState α) (item : α) (hcap : cap < 128)
    (hfull : s.next = cap) : add cap s item = Except.ok (false, s) := by
  have h : isFull cap s = true := (isFull_iff cap s hcap).mpr hfull
  simp [add, h]

theorem live_set_next (s : ListState α) (item : α) (hlt : s.next < s.items.length) :
    live ⟨s.items.set s.next item, s.next + 1⟩ = live s ++ [item] := by
  simp only [live]
  rw [List.take_succ]
  simp [take_set_of_le _ _ _ _ (Nat.le_refl _), hlt]

/-- C4: on a list that is not full, both overloads of `add` return `true`, store the item in
slot `count`, raise the count by one and leave the slots below the old count as they were,
so the live content `L` becomes `L ++ [item]`. -/
theorem add_not_full (cap : Nat) (s : ListState α) (item : α) (hcap : cap < 128)
    (hlen : s.items.length = cap) (hnf : getCount s < cap) :
    ∃ s1 : ListState α, add cap s item = Except.ok (true, s1) ∧
      addRvalue cap s item = Except.ok (true, s1) ∧
      getCount s1 = getCount s + 1 ∧
      index s1 (getCount s) = Except.ok item ∧
      (∀ j, j < getCount s → index s1 j = index s j) ∧
      live s1 = live s ++ [item] := by
  simp only [getCount] at hnf ⊢
  have hlt : s.next < s.items.length := by omega
  refine ⟨⟨s.items.set s.next item, s.next + 1⟩, add_eq_of_not_full cap s item hcap hlen hnf,
    addRvalue_eq_of_not_full cap s item hcap hlen hnf, rfl, ?_, ?_, live_set_next s item hlt⟩
  · simp [index, readAt, hlt]
  · intro j hj
    have hne : s.next ≠ j := by omega
    simp [index, readAt, List.getElem?_set_ne hne]

theorem add_not_full_witness :
    ∃ s1 : ListState Nat, add 3 ⟨[5, 0, 0], 1⟩ 8 = Except.ok (true, s1) ∧
      addRvalue 3 ⟨[5, 0, 0], 1⟩ 8 = Except.ok (true, s1) ∧
      getCount s1 = getCount (⟨[5, 0, 0], 1⟩ : ListState Nat) + 1 ∧
      index s1 (getCount (⟨[5, 0, 0], 1⟩ : ListState Nat)) = Except.ok 8 ∧
      (∀ j, j < getCount (⟨[5, 0, 0], 1⟩ : ListState Nat) →
        index s1 j = index (⟨[5, 0, 0], 1⟩ : ListState Nat) j) ∧
      live s1 = live (⟨[5, 0, 0], 1⟩ : ListState Nat) ++ [8] :=
  add_not_full 3 ⟨[5, 0, 0], 1⟩ 8 (by decide) rfl (by decide)

/-- C5: on a full list both overloads of `add` return `false` and the state, count and
every slot, is the one before the call. -/
theorem add_full (cap : Nat) (s : ListState α) (item : α) (hcap : cap < 128)
    (hfull : getCount s = cap) :
    add cap s item = Except.ok (false, s) ∧ addRvalue cap s item = Except.ok (false, s) := by
  have h : isFull cap s = true := (isFull_iff cap s hcap).mpr hfull
  simp [add, addRvalue, h]

theorem add_full_witness :
    add 2 (⟨[4, 6], 2⟩ : ListState Nat) 9 = Except.ok (false, ⟨[4, 6], 2⟩) ∧
      addRvalue 2 (⟨[4, 6], 2⟩ : ListState Nat) 9 = Except.ok (false, ⟨[4, 6], 2⟩) :=
  add_full 2 ⟨[4, 6], 2⟩ 9 (by decide) rfl

/-! ## A run of `add` calls -/

theorem addAll_spec (cap : Nat) (hcap : cap < 128) (xs : List α) :
    ∀ s : ListState α, s.items.length = cap → s.next ≤ cap →
      ∃ s1 : ListState α,
        addAll cap s xs = Except.ok
          ((List.range xs.length).map
            (fun k => (decide (s.next + k < cap), min (s.next + k + 1) cap)), s1) ∧
        s1.next = min (s.next + xs.length) cap ∧ s1.items.length = cap ∧
        live s1 = live s ++ xs.take (cap - s.next) := by
  induction xs with
  | nil =>
    intro s hlen hle
    exact ⟨s, by simp [addAll], by simp; omega, hlen, by simp⟩
  | cons x xs ih =>
    intro s hlen hle
    by_cases hnf : s.next < cap
    · have hlt : s.next < s.items.length := by omega
      have hadd := add_eq_of_not_full cap s x hcap hlen hnf
      have hlive := live_set_next s x hlt
      generalize hs1 : (⟨s.items.set s.next x, s.next + 1⟩ : ListState α) = s1 at hadd hlive
      have hlen1 : s1.items.length = cap := by rw [← hs1]; simpa using hlen
      have hnext1 : s1.next = s.next + 1 := by rw [← hs1]
      obtain ⟨s2, hrun, hn2, hl2, hlive2⟩ := ih s1 hlen1 (by omega)
      refine ⟨s2, ?_, ?_, hl2, ?_⟩
      · simp only [addAll, hadd, hrun, bind, Except.bind, List.length_cons,
          List.range_succ_eq_map, List.map_cons, List.map_map, getCount]
        have hmin : min (s.next + 1) cap = s.next + 1 := by omega
        simp [hnf, hnext1, hmin]
        intro a _
        have e1 : s.next + 1 + a = s.next + (a + 1) := by omega
        rw [e1]
        exact ⟨Iff.rfl, rfl⟩
      · rw [hn2, hnext1]
        simp only [List.length_cons]
        omega
      · rw [hlive2, hlive, hnext1]
        have e : cap - s.next = (cap - (s.next + 1)) + 1 := by omega
        rw [e, List.take_succ_cons]
        simp
    · have hfull : s.next = cap := by omega
      have hadd := add_eq_of_full cap s x hcap hfull
      obtain ⟨s2, hrun, hn2, hl2, hlive2⟩ := ih s hlen hle
      have hs : s.next = cap := hfull
      refine ⟨s2, ?_, ?_, hl2, ?_⟩
      · simp only [addAll, hadd, hrun, bind, Except.bind, List.length_cons,
          List.range_succ_eq_map, List.map_cons, List.map_map, getCount]
        have hf : (fun k => (decide (s.next + k < cap), min (s.next + k + 1) cap)) =
            ((fun k => (decide (s.next + k < cap), min (s.next + k + 1) cap)) ∘ Nat.succ) := by
          funext k
          simp only [Function.comp, Nat.succ_eq_add_one]
          have a1 : ¬ s.next + k < cap := by omega
          have a2 : ¬ s.next + (k + 1) < cap := by omega
          have m1 : min (s.next + k + 1) cap = cap := by omega
          have m2 : min (s.next + (k + 1) + 1) cap = cap := by omega
          simp [a1, a2, m1, m2]
        have hmin : min (s.next + 1) cap = s.next := by omega
        have hnf2 : ¬ s.next < cap := hnf
        simp [hnf2, hmin, ← hf]
      · rw [hn2]
        simp only [List.length_cons]
        omega
      · rw [hlive2]
        have e : cap - s.next = 0 := by omega
        simp [e]

/-- C6: starting from the newly constructed list, in any run of `add` calls the call number
`k` (counting from `0`) returns `true` exactly when `k < Capacity` and leaves the count at
`min (k + 1) Capacity`: the first `Capacity` calls succeed, every later one returns `false`
with the count still `Capacity`, and the count never exceeds `Capacity`. -/
theorem add_sequence_capacity_bound (cap : Nat) (dflt : α) (xs : List α) (hcap : cap < 128) :
    ∃ (tr : List (Bool × Nat)) (s1 : ListState α),
      addAll cap (new cap dflt) xs = Except.ok (tr, s1) ∧
      tr = (List.range xs.length).map (fun k => (decide (k < cap), min (k + 1) cap)) ∧
      (∀ p, p ∈ tr → p.2 ≤ cap) ∧
      getCount s1 = min xs.length cap := by
  obtain ⟨s1, hrun, hn, _, _⟩ :=
    addAll_spec cap hcap xs (new cap dflt) (by simp [new]) (by simp [new])
  refine ⟨_, s1, hrun, ?_, ?_, ?_⟩
  · simp [new]
  · intro p hp
    obtain ⟨k, _, hk⟩ := List.mem_map.mp hp
    rw [← hk]
    exact Nat.min_le_right _ _
  · simpa [new, getCount] using hn

theorem add_sequence_capacity_bound_witness :
    ∃ (tr : List (Bool × Nat)) (s1 : ListState Nat),
      addAll 2 (new 2 0) [7, 8, 9, 10] = Except.ok (tr, s1) ∧
      tr = (List.range [7, 8, 9, 10].length).map (fun k => (decide (k < 2), min (k + 1) 2)) ∧
      (∀ p, p ∈ tr → p.2 ≤ 2) ∧
      getCount s1 = min [7, 8, 9, 10].length 2 :=
  add_sequence_capacity_bound 2 0 [7, 8, 9, 10] (by decide)

/-- A run of four `add` calls on a new list of capacity `2`. -/
theorem addAll_four_on_capacity_two :
    addAll 2 (new 2 0) [7, 8, 9, 10] =
      Except.ok ([(true, 1), (true, 2), (false, 2), (false, 2)], ⟨[7, 8], 2⟩) := rfl

/-! ## `insert` on a full list -/

/-- C10: on a full list `insert` returns `false`, whatever the index and the item, and the
state, count and every slot, is the one before the call. -/
theorem insert_full (cap fuel : Nat) (s : ListState α) (idx : Nat) (item : α)
    (hcap : cap < 128) (hfull : getCount s = cap) :
    insert cap fuel s idx item = Except.ok (false, s) := by
  have h : isFull cap s = true := (isFull_iff cap s hcap).mpr hfull
  simp [insert_of_values, h]

theorem insert_full_witness :
    insert 3 3 (⟨[1, 2, 3], 3⟩ : ListState Nat) 1 9 = Except.ok (false, ⟨[1, 2, 3], 3⟩) :=
  insert_full 3 3 ⟨[1, 2, 3], 3⟩ 1 9 (by decide) rfl

/-! ## `insert` below the last element -/

/-- C1 (the code at the failing input): on `[1, 2, 3]` in a list of capacity `4`,
`insert(1, 9)` returns `true` with live content `[1, 9, 2, 2]`; the insertion the claim
describes is `[1, 9, 2, 3]`.  The loop runs upwards from `index + 1`, so slot `3` receives
the value slot `2` was given one step earlier, and the old last element `3` is lost. -/
theorem insert_middle_overwrites_tail :
    insert 4 4 (⟨[1, 2, 3, 0], 3⟩ : ListState Nat) 1 9 = Except.ok (true, ⟨[1, 9, 2, 2], 4⟩) ∧
      live (⟨[1, 9, 2, 2], 4⟩ : ListState Nat) = [1, 9, 2, 2] ∧
      (live (⟨[1, 2, 3, 0], 3⟩ : ListState Nat)).take 1 ++ [9] ++
        (live (⟨[1, 2, 3, 0], 3⟩ : ListState Nat)).drop 1 = [1, 9, 2, 3] :=
  ⟨rfl, rfl, rfl⟩

/-! ## `resize` to zero -/

/-- With `newSize = 0` the condition `i >= newSize` of the shrinking loop holds for every
`uint8_t` value of `i`: started inside the array, the loop uses up its fuel when it has at
most `i + 1` iterations, and otherwise reaches `i = 255` after slot `0` and leaves the
array. -/
theorem resizeShrinkLoop_zero (destroy : α → α) :
    ∀ (i fuel : Nat) (items : List α), i < items.length → items.length < 256 →
      resizeShrinkLoop destroy 0 fuel i items =
        if fuel ≤ i + 1 then Except.error Fault.outOfFuel
        else Except.error Fault.outOfBounds := by
  intro i
  induction i with
  | zero =>
    intro fuel items hi hlen
    match fuel with
    | 0 => simp [resizeShrinkLoop]
    | 1 =>
      simp [resizeShrinkLoop, destroyAt_of_lt destroy items 0 hi, bind, Except.bind]
    | f + 2 =>
      have hoob := destroyAt_of_le destroy (items.set 0 (destroy items[0])) 255
        (by simp; omega)
      simp [resizeShrinkLoop, destroyAt_of_lt destroy items 0 hi, bind, Except.bind, hoob]
  | succ n ih =>
    intro fuel items hi hlen
    match fuel with
    | 0 => simp [resizeShrinkLoop]
    | f + 1 =>
      have hmod : (n + 1 + 255) % 256 = n := by omega
      have hrec := ih f (items.set (n + 1) (destroy items[n + 1]))
        (by simp; omega) (by simpa using hlen)
      simp only [resizeShrinkLoop, destroyAt_of_lt destroy items (n + 1) hi, bind, Except.bind,
        hmod, hrec, ge_iff_le, Nat.zero_le, if_true]
      by_cases hf : f ≤ n + 1
      · have : f + 1 ≤ n + 1 + 1 := by omega
        simp [hf, this]
      · have : ¬ f + 1 ≤ n + 1 + 1 := by omega
        simp [hf, this]

/-- On a non-empty list `resize(0)` never returns: with at most `count` iterations allowed
the shrinking loop is still running, and with more it destroys `items[255]`. -/
theorem resize_zero_of_nonempty (destroy : α → α) (dflt : α) (cap fuel : Nat)
    (s : ListState α) (hcap : cap < 128) (hlen : s.items.length = cap)
    (hpos : 0 < s.next) (hle : s.next ≤ cap) :
    resize destroy dflt cap fuel s 0 =
      if fuel ≤ s.next then Except.error Fault.outOfFuel
      else Except.error Fault.outOfBounds := by
  have h0 : ¬ (0 = getCount s) := by simp only [getCount]; omega
  have h1 : ¬ (0 > getCapacity cap) := by omega
  have h2 : 0 < getCount s := hpos
  have hmod : (s.next + 255) % 256 = s.next - 1 := by omega
  have hloop := resizeShrinkLoop_zero destroy (s.next - 1) fuel s.items (by omega) (by omega)
  have hs : s.next - 1 + 1 = s.next := by omega
  rw [hs] at hloop
  simp only [resize, h0, h1, h2, if_false, if_true, hmod, hloop, bind, Except.bind]
  by_cases hf : fuel ≤ s.next <;> simp [hf]

/-- C2 (the code at the failing input): `resize(0)` on the one-element list `[7]` of
capacity `1` returns nothing, whatever the number of iterations allowed: the claim has it
return `true` with count `0`. -/
theorem resize_zero_singleton_never_returns (fuel : Nat) (r : Bool × ListState Nat) :
    resize id 0 1 fuel (⟨[7], 1⟩ : ListState Nat) 0 ≠ Except.ok r := by
  rw [resize_zero_of_nonempty id 0 1 fuel ⟨[7], 1⟩ (by decide) rfl (by decide) (by decide)]
  by_cases hf : fuel ≤ 1 <;> simp [hf]

/-- C3 (the code at the failing input): on the full list `[1, 2, 3]` of capacity `3`,
`resize(0)` does not terminate within `Capacity` iterations of its loop, nor within any
other number: after three iterations `i` has wrapped from `0` to `255`, the condition
`i >= 0` still holds, and the fourth iteration is outside the array. -/
theorem resize_zero_full_exceeds_capacity (fuel : Nat) :
    resize id 0 3 fuel (⟨[1, 2, 3], 3⟩ : ListState Nat) 0 =
      if fuel ≤ 3 then Except.error Fault.outOfFuel else Except.error Fault.outOfBounds :=
  resize_zero_of_nonempty id 0 3 fuel ⟨[1, 2, 3], 3⟩ (by decide) rfl (by decide) (by decide)

/-! ## `resize` to a smaller, non-zero size -/

theorem resizeShrinkLoop_pos (destroy : α → α) (newSize : Nat) (hpos : 0 < newSize) :
    ∀ (fuel i : Nat) (items : List α), newSize ≤ i + 1 → i < items.length →
      items.length < 256 → i + 1 - newSize ≤ fuel →
      ∃ r : List α, resizeShrinkLoop destroy newSize fuel i items = Except.ok r ∧
        r.length = items.length ∧ ∀ j, j < newSize → r[j]? = items[j]? := by
  intro fuel
  induction fuel with
  | zero =>
    intro i items h1 _ _ hfuel
    have hnot : ¬ i ≥ newSize := by omega
    exact ⟨items, by simp only [resizeShrinkLoop, hnot, if_false], rfl, fun _ _ => rfl⟩
  | succ f ih =>
    intro i items h1 hi h256 hfuel
    by_cases hge : i ≥ newSize
    · have hmod : (i + 255) % 256 = i - 1 := by omega
      obtain ⟨r, hr, hrlen, hrget⟩ := ih (i - 1) (items.set i (destroy items[i])) (by omega)
        (by simp; omega) (by simpa using h256) (by omega)
      refine ⟨r, ?_, by simpa using hrlen, ?_⟩
      · simp only [resizeShrinkLoop, hge, if_true, destroyAt_of_lt destroy items i hi, bind,
          Except.bind, hmod, hr]
      · intro j hj
        have hne : i ≠ j := by omega
        rw [hrget j hj, List.getElem?_set_ne hne]
    · exact ⟨items, by simp only [resizeShrinkLoop, hge, if_false], rfl, fun _ _ => rfl⟩

/-- For `0 < newSize < count <= Capacity`, `resize(newSize)` returns `true` with the count
set to `newSize` and the first `newSize` live elements kept. -/
theorem resize_shrink_to_positive (destroy : α → α) (dflt : α) (cap fuel : Nat)
    (s : ListState α) (newSize : Nat) (hcap : cap < 128) (hlen : s.items.length = cap)
    (hle : s.next ≤ cap) (hpos : 0 < newSize) (hlt : newSize < s.next) (hfuel : s.next ≤ fuel) :
    ∃ s1 : ListState α, resize destroy dflt cap fuel s newSize = Except.ok (true, s1) ∧
      getCount s1 = newSize ∧ live s1 = (live s).take newSize := by
  have h0 : ¬ (newSize = getCount s) := by simp only [getCount]; omega
  have hc : getCapacity cap = cap := Nat.mod_eq_of_lt (by omega)
  have h1 : ¬ (newSize > getCapacity cap) := by rw [hc]; omega
  have h2 : newSize < getCount s := hlt
  have hmod : (s.next + 255) % 256 = s.next - 1 := by omega
  obtain ⟨r, hr, _, hrget⟩ := resizeShrinkLoop_pos destroy newSize hpos fuel (s.next - 1)
    s.items (by omega) (by omega) (by omega) (by omega)
  refine ⟨⟨r, newSize⟩, ?_, rfl, ?_⟩
  · simp only [resize, h0, h1, h2, if_false, if_true, hmod, hr, bind, Except.bind]
  · apply List.ext_getElem?
    intro j
    simp only [live, List.getElem?_take]
    by_cases hj : j < newSize
    · have : j < s.next := by omega
      simp [hj, this, hrget j hj]
    · simp [hj]

theorem resize_shrink_to_positive_witness :
    ∃ s1 : ListState Nat, resize id 0 3 3 ⟨[1, 2, 3], 3⟩ 1 = Except.ok (true, s1) ∧
      getCount s1 = 1 ∧ live s1 = (live (⟨[1, 2, 3], 3⟩ : ListState Nat)).take 1 :=
  resize_shrink_to_positive id 0 3 3 ⟨[1, 2, 3], 3⟩ 1 (by decide) rfl (by decide) (by decide)
    (by decide) (by decide)

/-! ## The shifting loop of `remove` and `removeAt` -/

theorem shiftDownLoop_spec (next : Nat) (hnext : next < 256) :
    ∀ (fuel i : Nat) (items : List α), i ≤ next → next < items.length → next - i ≤ fuel →
      ∃ r : List α, shiftDownLoop next fuel i items = Except.ok r ∧
        r.length = items.length ∧
        ∀ j, r[j]? = if i ≤ j ∧ j < next then items[j + 1]? else items[j]? := by
  intro fuel
  induction fuel with
  | zero =>
    intro i items hi hlen hfuel
    have hnot : ¬ i < next := by omega
    refine ⟨items, by simp [shiftDownLoop, hnot], rfl, ?_⟩
    intro j
    have : ¬ (i ≤ j ∧ j < next) := by omega
    simp [this]
  | succ f ih =>
    intro i items hi hlen hfuel
    by_cases hlt : i < next
    · have hread : i + 1 < items.length := by omega
      have hwrite : i < items.length := by omega
      have hmod : (i + 1) % 256 = i + 1 := Nat.mod_eq_of_lt (by omega)
      obtain ⟨r, hr, hrlen, hrget⟩ := ih (i + 1) (items.set i items[i + 1]) (by omega)
        (by simpa using hlen) (by omega)
      refine ⟨r, ?_, by simpa using hrlen, ?_⟩
      · simp [shiftDownLoop, hlt, readAt_of_lt items (i + 1) hread,
          writeAt_of_lt items i _ hwrite, hmod, hr, bind, Except.bind]
      · intro j
        rw [hrget j]
        by_cases hji : j = i
        · subst hji
          have h1 : ¬ (j + 1 ≤ j ∧ j < next) := by omega
          have h2 : j ≤ j ∧ j < next := by omega
          simp [h1, h2, List.getElem?_eq_getElem hread, hwrite]
        · by_cases hc : i + 1 ≤ j ∧ j < next
          · have h2 : i ≤ j ∧ j < next := by omega
            have hne : i ≠ j + 1 := by omega
            simp [hc, h2, List.getElem?_set_ne hne]
          · have h2 : ¬ (i ≤ j ∧ j < next) := by omega
            have hne : i ≠ j := fun h => hji h.symm
            simp [hc, h2, List.getElem?_set_ne hne]
    · refine ⟨items, by simp [shiftDownLoop, hlt], rfl, ?_⟩
      intro j
      have : ¬ (i ≤ j ∧ j < next) := by omega
      simp [this]

/-- What `removeAt` does inside its precondition, slot by slot. -/
theorem removeAt_slots (destroy : α → α) (cap fuel : Nat) (s : ListState α) (idx : Nat)
    (hcap : cap < 128) (hlen : s.items.length = cap) (hle : s.next ≤ cap)
    (hidx : idx < s.next) (hfuel : s.next ≤ fuel) :
    ∃ s1 : ListState α, removeAt destroy fuel s idx = Except.ok s1 ∧
      s1.next + 1 = s.next ∧ s1.items.length = s.items.length ∧
      ∀ j, j < s1.next → s1.items[j]? = if j < idx then s.items[j]? else s.items[j + 1]? := by
  have hmod : (s.next + 255) % 256 = s.next - 1 := by omega
  obtain ⟨r, hr, hrlen, hrget⟩ := shiftDownLoop_spec (s.next - 1) (by omega) fuel idx s.items
    (by omega) (by omega) (by omega)
  have hd : s.next - 1 < r.length := by omega
  refine ⟨⟨r.set (s.next - 1) (destroy r[s.next - 1]), s.next - 1⟩, ?_, ?_, ?_, ?_⟩
  · simp [removeAt, hmod, hr, destroyAt_of_lt destroy r _ hd, bind, Except.bind]
  · simp only
    omega
  · simp [hrlen]
  · intro j hj
    simp only at hj
    have hne : s.next - 1 ≠ j := by omega
    simp only [List.getElem?_set_ne hne, hrget j]
    by_cases hji : j < idx
    · have : ¬ (idx ≤ j ∧ j < s.next - 1) := by omega
      simp [this, hji]
    · have : idx ≤ j ∧ j < s.next - 1 := by omega
      simp [this, hji]

/-- The live content after `removeAt`, inside its precondition. -/
theorem removeAt_live (destroy : α → α) (cap fuel : Nat) (s : ListState α) (idx : Nat)
    (hcap : cap < 128) (hlen : s.items.length = cap) (hle : s.next ≤ cap)
    (hidx : idx < s.next) (hfuel : s.next ≤ fuel) :
    ∃ s1 : ListState α, removeAt destroy fuel s idx = Except.ok s1 ∧
      s1.next + 1 = s.next ∧ s1.items.length = s.items.length ∧
      (∀ j, j < s1.next → s1.items[j]? = if j < idx then s.items[j]? else s.items[j + 1]?) ∧
      live s1 = (live s).eraseIdx idx := by
  obtain ⟨s1, hrun, hn, hl, hget⟩ := removeAt_slots destroy cap fuel s idx hcap hlen hle hidx hfuel
  refine ⟨s1, hrun, hn, hl, hget, ?_⟩
  apply List.ext_getElem?
  intro j
  simp only [live, List.getElem?_eraseIdx, List.getElem?_take]
  by_cases hj : j < s1.next
  · rw [if_pos hj, hget j hj]
    by_cases hji : j < idx
    · have : j < s.next := by omega
      simp [hji, this]
    · have : j + 1 < s.next := by omega
      simp [hji, this]
  · rw [if_neg hj]
    have h1 : ¬ j < idx := by omega
    have h2 : ¬ j + 1 < s.next := by omega
    simp [h1, h2]

/-! ## `removeAt` -/

/-- C7: for `index < count <= Capacity`, `removeAt(index)` returns with the count lowered by
exactly one and the live content `L` turned into `L` with position `index` erased: slots
below `index` keep their element and every old element at `j > index` is at `j - 1`. -/
theorem removeAt_erases_index (destroy : α → α) (cap fuel : Nat) (s : ListState α) (idx : Nat)
    (hcap : cap < 128) (hlen : s.items.length = cap) (hle : getCount s ≤ cap)
    (hidx : idx < getCount s) (hfuel : getCount s ≤ fuel) :
    ∃ s1 : ListState α, removeAt destroy fuel s idx = Except.ok s1 ∧
      getCount s1 + 1 = getCount s ∧
      live s1 = (live s).eraseIdx idx ∧
      (∀ j, j < idx → index s1 j = index s j) ∧
      (∀ j, idx < j → j < getCount s → index s1 (j - 1) = index s j) := by
  simp only [getCount] at hle hidx hfuel ⊢
  obtain ⟨s1, hrun, hn, _, hget, hlive⟩ :=
    removeAt_live destroy cap fuel s idx hcap hlen hle hidx hfuel
  refine ⟨s1, hrun, hn, hlive, ?_, ?_⟩
  · intro j hj
    have h := hget j (by omega)
    rw [if_pos hj] at h
    simp [index, readAt, h]
  · intro j hj1 hj2
    have h := hget (j - 1) (by omega)
    have hnot : ¬ j - 1 < idx := by omega
    have hj : j - 1 + 1 = j := by omega
    rw [if_neg hnot, hj] at h
    simp [index, readAt, h]

theorem removeAt_erases_index_witness :
    ∃ s1 : ListState Nat, removeAt id 3 ⟨[1, 2, 3], 3⟩ 1 = Except.ok s1 ∧
      getCount s1 + 1 = getCount (⟨[1, 2, 3], 3⟩ : ListState Nat) ∧
      live s1 = (live (⟨[1, 2, 3], 3⟩ : ListState Nat)).eraseIdx 1 ∧
      (∀ j, j < 1 → index s1 j = index (⟨[1, 2, 3], 3⟩ : ListState Nat) j) ∧
      (∀ j, 1 < j → j < getCount (⟨[1, 2, 3], 3⟩ : ListState Nat) →
        index s1 (j - 1) = index (⟨[1, 2, 3], 3⟩ : ListState Nat) j) :=
  removeAt_erases_index id 3 3 ⟨[1, 2, 3], 3⟩ 1 (by decide) rfl (by decide) (by decide)
    (by decide)

/-- The call `removeAt(1)` on `[1, 2, 3]`: count `2`, live content `[1, 3]`. -/
theorem removeAt_one_of_three :
    removeAt id 3 (⟨[1, 2, 3], 3⟩ : ListState Nat) 1 = Except.ok ⟨[1, 3, 3], 2⟩ ∧
      live (⟨[1, 3, 3], 2⟩ : ListState Nat) = [1, 3] :=
  ⟨rfl, rfl⟩

/-! ## `remove` -/

theorem erase_eq_eraseIdx_of_first [DecidableEq α] (a : α) :
    ∀ (l : List α) (k : Nat), l[k]? = some a → (∀ j, j < k → l[j]? ≠ some a) →
      l.erase a = l.eraseIdx k := by
  intro l
  induction l with
  | nil =>
    intro k hk _
    simp at hk
  | cons b t ih =>
    intro k hk hfirst
    cases k with
    | zero =>
      have hb : b = a := by simpa using hk
      subst hb
      simp
    | succ k1 =>
      have hb : b ≠ a := by
        intro h
        exact hfirst 0 (by omega) (by simp [h])
      have hk1 : t[k1]? = some a := by simpa using hk
      have hrest : ∀ j, j < k1 → t[j]? ≠ some a := by
        intro j hj
        have := hfirst (j + 1) (by omega)
        simpa using this
      rw [List.erase_cons_tail (by simpa using hb), List.eraseIdx_cons_succ, ih k1 hk1 hrest]

/-- The scan of `remove` stops at the first slot holding the item and there does what
`removeAt` does at that slot. -/
theorem removeLoop_found [DecidableEq α] (destroy : α → α) (item : α) (shiftFuel : Nat)
    (s : ListState α) (k : Nat) (hk : k < s.next) (hle : s.next ≤ s.items.length)
    (h256 : s.next < 256) (hitem : s.items[k]? = some item) :
    ∀ (fuel i : Nat), i ≤ k → (∀ j, i ≤ j → j < k → s.items[j]? ≠ some item) → k - i < fuel →
      removeLoop destroy item shiftFuel fuel i s =
        (removeAt destroy shiftFuel s k).map (fun s1 => (true, s1)) := by
  intro fuel
  induction fuel with
  | zero =>
    intro i _ _ hfuel
    omega
  | succ f ih =>
    intro i hik hfirst hfuel
    have hlt : i < s.next := by omega
    by_cases hi : i = k
    · subst hi
      have hread : readAt s.items i = Except.ok item := by simp [readAt, hitem]
      simp only [removeLoop, hlt, if_true, hread, bind, Except.bind, removeAt, Except.map]
      cases shiftDownLoop ((s.next + 255) % 256) shiftFuel i s.items with
      | error e => rfl
      | ok items1 =>
        simp only
        cases destroyAt destroy items1 ((s.next + 255) % 256) with
        | error e => rfl
        | ok items2 => rfl
    · have hne := hfirst i (Nat.le_refl i) (by omega)
      have hmod : (i + 1) % 256 = i + 1 := Nat.mod_eq_of_lt (by omega)
      have hrec := ih (i + 1) (by omega) (fun j hj1 hj2 => hfirst j (by omega) hj2) (by omega)
      have hin : i < s.items.length := by omega
      have hv : s.items[i] ≠ item := by
        intro h
        exact hne (by rw [List.getElem?_eq_getElem hin, h])
      simp [removeLoop, hlt, readAt_of_lt s.items i hin, bind, Except.bind, hv, hmod, hrec]

/-- The scan of `remove` over slots none of which holds the item. -/
theorem removeLoop_not_found [DecidableEq α] (destroy : α → α) (item : α) (shiftFuel : Nat)
    (s : ListState α) (hle : s.next ≤ s.items.length) (h256 : s.next < 256) :
    ∀ (fuel i : Nat), i ≤ s.next → (∀ j, i ≤ j → j < s.next → s.items[j]? ≠ some item) →
      s.next - i ≤ fuel → removeLoop destroy item shiftFuel fuel i s = Except.ok (false, s) := by
  intro fuel
  induction fuel with
  | zero =>
    intro i hi _ hfuel
    have : ¬ i < s.next := by omega
    simp [removeLoop, this]
  | succ f ih =>
    intro i hi hnone hfuel
    by_cases hlt : i < s.next
    · have hin : i < s.items.length := by omega
      have hv : s.items[i] ≠ item := by
        intro h
        exact hnone i (Nat.le_refl i) hlt (by rw [List.getElem?_eq_getElem hin, h])
      have hmod : (i + 1) % 256 = i + 1 := Nat.mod_eq_of_lt (by omega)
      have hrec := ih (i + 1) (by omega) (fun j hj1 hj2 => hnone j (by omega) hj2) (by omega)
      simp [removeLoop, hlt, readAt_of_lt s.items i hin, bind, Except.bind, hv, hmod, hrec]
    · simp [removeLoop, hlt]

/-- C8: when the item equals some live element, `remove(item)` returns `true`, lowers the
count by exactly one, and the live content becomes the old one with its first occurrence of
the item erased, the other elements keeping their order. -/
theorem remove_erases_first [DecidableEq α] (destroy : α → α) (cap fuel : Nat)
    (s : ListState α) (item : α) (hcap : cap < 128) (hlen : s.items.length = cap)
    (hle : getCount s ≤ cap) (hmem : item ∈ live s) (hfuel : getCount s ≤ fuel) :
    ∃ s1 : ListState α, remove destroy fuel s item = Except.ok (true, s1) ∧
      getCount s1 + 1 = getCount s ∧ live s1 = (live s).erase item := by
  simp only [getCount] at hle hfuel ⊢
  have hex : ∃ k, (live s)[k]? = some item := List.mem_iff_getElem?.mp hmem
  have hspec := Nat.find_spec hex
  have hmin := fun m (hm : m < Nat.find hex) => Nat.find_min hex hm
  generalize Nat.find hex = k at hspec hmin
  have hklen : k < (live s).length := by
    by_contra hcon
    rw [List.getElem?_eq_none (by omega)] at hspec
    exact Option.noConfusion hspec
  have hk : k < s.next := by
    simp only [live, List.length_take] at hklen
    omega
  have hitem : s.items[k]? = some item := by
    simpa [live, List.getElem?_take, hk] using hspec
  have hfirst : ∀ j, 0 ≤ j → j < k → s.items[j]? ≠ some item := by
    intro j _ hj
    have := hmin j hj
    have hjn : j < s.next := by omega
    simpa [live, List.getElem?_take, hjn] using this
  have hloop := removeLoop_found destroy item fuel s k hk (by omega) (by omega) hitem fuel 0
    (Nat.zero_le k) hfirst (by omega)
  obtain ⟨s1, hrun, hn, _, _, hlive⟩ := removeAt_live destroy cap fuel s k hcap hlen hle hk hfuel
  refine ⟨s1, ?_, hn, ?_⟩
  · simp [remove, hloop, hrun, Except.map]
  · rw [hlive, erase_eq_eraseIdx_of_first item (live s) k hspec hmin]

theorem remove_erases_first_witness :
    ∃ s1 : ListState Nat, remove id 4 ⟨[1, 2, 3, 2], 4⟩ 2 = Except.ok (true, s1) ∧
      getCount s1 + 1 = getCount (⟨[1, 2, 3, 2], 4⟩ : ListState Nat) ∧
      live s1 = (live (⟨[1, 2, 3, 2], 4⟩ : ListState Nat)).erase 2 :=
  remove_erases_first id 4 4 ⟨[1, 2, 3, 2], 4⟩ 2 (by decide) rfl (by decide) (by decide)
    (by decide)

/-- C9: when the item equals no live element, `remove(item)` returns `false` and the state,
count and every slot, is the one before the call. -/
theorem remove_absent [DecidableEq α] (destroy : α → α) (cap fuel : Nat)
    (s : ListState α) (item : α) (hcap : cap < 128) (hlen : s.items.length = cap)
    (hle : getCount s ≤ cap) (habsent : ∀ i, i < getCount s → index s i ≠ Except.ok item)
    (hfuel : getCount s ≤ fuel) :
    remove destroy fuel s item = Except.ok (false, s) := by
  simp only [getCount] at hle hfuel habsent
  apply removeLoop_not_found destroy item fuel s (by omega) (by omega) fuel 0 (Nat.zero_le _)
  · intro j _ hj hget
    exact habsent j hj (by simp [index, readAt, hget])
  · omega

theorem remove_absent_witness :
    remove id 3 (⟨[1, 2, 5], 2⟩ : ListState Nat) 5 = Except.ok (false, ⟨[1, 2, 5], 2⟩) :=
  remove_absent id 3 3 ⟨[1, 2, 5], 2⟩ 5 (by decide) rfl (by decide)
    (by
      intro i hi
      have hi2 : i < 2 := hi
      interval_cases i <;> simp [index, readAt])
    (by decide)

/-! ## `indexOf` and `contains` -/

theorem index_eq_ok_iff (s : ListState α) (i : Nat) (v : α) :
    index s i = Except.ok v ↔ s.items[i]? = some v := by
  simp only [index, readAt]
  cases h : s.items[i]? with
  | none => simp
  | some w => simp

theorem getElem?_live (s : ListState α) (j : Nat) (hj : j < s.next) :
    (live s)[j]? = s.items[j]? := by
  simp [live, List.getElem?_take, hj]

theorem mem_live_iff (s : ListState α) (item : α) :
    item ∈ live s ↔ ∃ k, k < s.next ∧ s.items[k]? = some item := by
  rw [List.mem_iff_getElem?]
  constructor
  · rintro ⟨k, hk⟩
    have hklen : k < (live s).length := by
      by_contra hcon
      rw [List.getElem?_eq_none (by omega)] at hk
      exact Option.noConfusion hk
    have hkn : k < s.next := by
      simp only [live, List.length_take] at hklen
      omega
    exact ⟨k, hkn, by rw [← getElem?_live s k hkn]; exact hk⟩
  · rintro ⟨k, hkn, hk⟩
    exact ⟨k, by rw [getElem?_live s k hkn]; exact hk⟩

/-- A live element has a first slot holding it. -/
theorem exists_first_of_mem_live [DecidableEq α] (s : ListState α) (item : α)
    (hmem : item ∈ live s) :
    ∃ k, k < s.next ∧ s.items[k]? = some item ∧ ∀ j, j < k → s.items[j]? ≠ some item := by
  have hex : ∃ k, k < s.next ∧ s.items[k]? = some item := (mem_live_iff s item).mp hmem
  have hspec := Nat.find_spec hex
  have hmin := fun m (hm : m < Nat.find hex) => Nat.find_min hex hm
  generalize Nat.find hex = k at hspec hmin
  refine ⟨k, hspec.1, hspec.2, ?_⟩
  intro j hj hget
  exact hmin j hj ⟨by omega, hget⟩

theorem toIndexOfType_of_lt (k : Nat) (hk : k < 128) : toIndexOfType k = (k : Int) := by
  have hmod : k % 256 = k := Nat.mod_eq_of_lt (by omega)
  simp [toIndexOfType, hmod, hk]

/-- The scan of `indexOf` stops at the first slot holding the item. -/
theorem indexOfLoop_found [DecidableEq α] (s : ListState α) (item : α) (k : Nat)
    (hk : k < s.next) (hle : s.next ≤ s.items.length) (h256 : s.next < 256)
    (hitem : s.items[k]? = some item) :
    ∀ (fuel i : Nat), i ≤ k → (∀ j, i ≤ j → j < k → s.items[j]? ≠ some item) → k - i < fuel →
      indexOfLoop s item fuel i = Except.ok (toIndexOfType k) := by
  intro fuel
  induction fuel with
  | zero =>
    intro i _ _ hfuel
    omega
  | succ f ih =>
    intro i hik hfirst hfuel
    have hlt : i < s.next := by omega
    by_cases hi : i = k
    · subst hi
      have hread : readAt s.items i = Except.ok item := by simp [readAt, hitem]
      simp [indexOfLoop, hlt, hread, bind, Except.bind]
    · have hne := hfirst i (Nat.le_refl i) (by omega)
      have hmod : (i + 1) % 256 = i + 1 := Nat.mod_eq_of_lt (by omega)
      have hrec := ih (i + 1) (by omega) (fun j hj1 hj2 => hfirst j (by omega) hj2) (by omega)
      have hin : i < s.items.length := by omega
      have hv : s.items[i] ≠ item := by
        intro h
        exact hne (by rw [List.getElem?_eq_getElem hin, h])
      simp [indexOfLoop, hlt, readAt_of_lt s.items i hin, bind, Except.bind, hv, hmod, hrec]

/-- The scan of `indexOf` over slots none of which holds the item. -/
theorem indexOfLoop_not_found [DecidableEq α] (s : ListState α) (item : α)
    (hle : s.next ≤ s.items.length) (h256 : s.next < 256) :
    ∀ (fuel i : Nat), i ≤ s.next → (∀ j, i ≤ j → j < s.next → s.items[j]? ≠ some item) →
      s.next - i ≤ fuel → indexOfLoop s item fuel i = Except.ok (-1) := by
  intro fuel
  induction fuel with
  | zero =>
    intro i hi _ hfuel
    have : ¬ i < s.next := by omega
    simp [indexOfLoop, this]
  | succ f ih =>
    intro i hi hnone hfuel
    by_cases hlt : i < s.next
    · have hin : i < s.items.length := by omega
      have hv : s.items[i] ≠ item := by
        intro h
        exact hnone i (Nat.le_refl i) hlt (by rw [List.getElem?_eq_getElem hin, h])
      have hmod : (i + 1) % 256 = i + 1 := Nat.mod_eq_of_lt (by omega)
      have hrec := ih (i + 1) (by omega) (fun j hj1 hj2 => hnone j (by omega) hj2) (by omega)
      simp [indexOfLoop, hlt, readAt_of_lt s.items i hin, bind, Except.bind, hv, hmod, hrec]
    · simp [indexOfLoop, hlt]

/-- On a well-formed list, `indexOf` returns the first slot holding the item. -/
theorem indexOf_of_first [DecidableEq α] (cap fuel : Nat) (s : ListState α) (item : α)
    (k : Nat) (hcap : cap < 128) (hlen : s.items.length = cap) (hle : s.next ≤ cap)
    (hfuel : s.next ≤ fuel) (hk : k < s.next) (hitem : s.items[k]? = some item)
    (hfirst : ∀ j, j < k → s.items[j]? ≠ some item) :
    indexOf fuel s item = Except.ok (k : Int) := by
  rw [← toIndexOfType_of_lt k (by omega)]
  exact indexOfLoop_found s item k hk (by omega) (by omega) hitem fuel 0 (Nat.zero_le k)
    (fun j _ hj => hfirst j hj) (by omega)

/-- On a well-formed list, `indexOf` returns `-1` for an item no live slot holds. -/
theorem indexOf_of_absent [DecidableEq α] (cap fuel : Nat) (s : ListState α) (item : α)
    (hcap : cap < 128) (hlen : s.items.length = cap) (hle : s.next ≤ cap)
    (hfuel : s.next ≤ fuel) (habsent : ∀ j, j < s.next → s.items[j]? ≠ some item) :
    indexOf fuel s item = Except.ok (-1) :=
  indexOfLoop_not_found s item (by omega) (by omega) fuel 0 (Nat.zero_le _)
    (fun j _ hj => habsent j hj) (by omega)

/-- C11: for `count <= Capacity <= 127`, `indexOf(item)` returns either `-1`, and then no
live slot holds the item, or the smallest index `k < count` whose slot holds the item, as the
non-negative value `k` itself; it returns `-1` exactly when no live element equals the item,
and slots at `count` or above play no part. -/
theorem indexOf_first_or_minus_one [DecidableEq α] (cap fuel : Nat) (s : ListState α)
    (item : α) (hcap : cap < 128) (hlen : s.items.length = cap) (hle : getCount s ≤ cap)
    (hfuel : getCount s ≤ fuel) :
    ∃ r : Int, indexOf fuel s item = Except.ok r ∧
      ((r = -1 ∧ ∀ i, i < getCount s → index s i ≠ Except.ok item) ∨
        (∃ k : Nat, r = (k : Int) ∧ k < getCount s ∧ index s k = Except.ok item ∧
          ∀ j, j < k → index s j ≠ Except.ok item)) ∧
      (r = -1 ↔ item ∉ live s) := by
  simp only [getCount] at hle hfuel ⊢
  by_cases hmem : item ∈ live s
  · obtain ⟨k, hk, hitem, hfirst⟩ := exists_first_of_mem_live s item hmem
    refine ⟨(k : Int), indexOf_of_first cap fuel s item k hcap hlen hle hfuel hk hitem hfirst,
      Or.inr ⟨k, rfl, hk, (index_eq_ok_iff s k item).mpr hitem, ?_⟩, ?_⟩
    · intro j hj h
      exact hfirst j hj ((index_eq_ok_iff s j item).mp h)
    · constructor
      · intro h
        omega
      · intro h
        exact absurd hmem h
  · have habsent : ∀ j, j < s.next → s.items[j]? ≠ some item := by
      intro j hj h
      exact hmem ((mem_live_iff s item).mpr ⟨j, hj, h⟩)
    refine ⟨-1, indexOf_of_absent cap fuel s item hcap hlen hle hfuel habsent,
      Or.inl ⟨rfl, ?_⟩, ?_⟩
    · intro i hi h
      exact habsent i hi ((index_eq_ok_iff s i item).mp h)
    · simp [hmem]

theorem indexOf_first_or_minus_one_witness :
    ∃ r : Int, indexOf 4 (⟨[5, 7, 7, 9], 3⟩ : ListState Nat) 7 = Except.ok r ∧
      ((r = -1 ∧ ∀ i, i < getCount (⟨[5, 7, 7, 9], 3⟩ : ListState Nat) →
          index (⟨[5, 7, 7, 9], 3⟩ : ListState Nat) i ≠ Except.ok 7) ∨
        (∃ k : Nat, r = (k : Int) ∧ k < getCount (⟨[5, 7, 7, 9], 3⟩ : ListState Nat) ∧
          index (⟨[5, 7, 7, 9], 3⟩ : ListState Nat) k = Except.ok 7 ∧
          ∀ j, j < k → index (⟨[5, 7, 7, 9], 3⟩ : ListState Nat) j ≠ Except.ok 7)) ∧
      (r = -1 ↔ 7 ∉ live (⟨[5, 7, 7, 9], 3⟩ : ListState Nat)) :=
  indexOf_first_or_minus_one 4 4 ⟨[5, 7, 7, 9], 3⟩ 7 (by decide) rfl (by decide) (by decide)

/-- Two runs of `indexOf`: the first of two matches is returned, and a value held only by a
slot above the count is not found. -/
theorem indexOf_examples :
    indexOf 4 (⟨[5, 7, 7, 9], 3⟩ : ListState Nat) 7 = Except.ok 1 ∧
      indexOf 4 (⟨[5, 7, 7, 9], 3⟩ : ListState Nat) 9 = Except.ok (-1) :=
  ⟨rfl, rfl⟩

/-- C12: `contains(x)` is `indexOf(x) != -1` on every state; on a list with
`count <= Capacity` both return, and `contains(x)` is `true` exactly when some index
`i < count` has `items[i] == x`. -/
theorem contains_iff_indexOf [DecidableEq α] (cap fuel : Nat) (s : ListState α) (x : α) :
    contains fuel s x = (indexOf fuel s x).map (fun r => decide (r ≠ -1)) ∧
      (cap < 128 → s.items.length = cap → getCount s ≤ cap → getCount s ≤ fuel →
        ∃ r : Int, indexOf fuel s x = Except.ok r ∧
          contains fuel s x = Except.ok (decide (r ≠ -1)) ∧
          (decide (r ≠ -1) = true ↔ ∃ i, i < getCount s ∧ index s i = Except.ok x)) := by
  have hmap : contains fuel s x = (indexOf fuel s x).map (fun r => decide (r ≠ -1)) := by
    unfold contains
    cases indexOf fuel s x <;> rfl
  refine ⟨hmap, ?_⟩
  intro hcap hlen hle hfuel
  simp only [getCount] at hle hfuel ⊢
  by_cases hmem : x ∈ live s
  · obtain ⟨k, hk, hitem, hfirst⟩ := exists_first_of_mem_live s x hmem
    have hidx := indexOf_of_first cap fuel s x k hcap hlen hle hfuel hk hitem hfirst
    refine ⟨(k : Int), hidx, by rw [hmap, hidx]; rfl, ?_⟩
    have hne : (k : Int) ≠ -1 := by omega
    simp only [hne, ne_eq, not_false_eq_true, decide_True, true_iff]
    exact ⟨k, hk, (index_eq_ok_iff s k x).mpr hitem⟩
  · have habsent : ∀ j, j < s.next → s.items[j]? ≠ some x := by
      intro j hj h
      exact hmem ((mem_live_iff s x).mpr ⟨j, hj, h⟩)
    have hidx := indexOf_of_absent cap fuel s x hcap hlen hle hfuel habsent
    refine ⟨-1, hidx, by rw [hmap, hidx]; rfl, ?_⟩
    simp only [ne_eq, not_true_eq_false, decide_False, Bool.false_eq_true, false_iff]
    rintro ⟨i, hi, h⟩
    exact habsent i hi ((index_eq_ok_iff s i x).mp h)

theorem contains_iff_indexOf_witness :
    contains 4 (⟨[5, 7, 7, 9], 3⟩ : ListState Nat) 7 =
        (indexOf 4 (⟨[5, 7, 7, 9], 3⟩ : ListState Nat) 7).map (fun r => decide (r ≠ -1)) ∧
      ∃ r : Int, indexOf 4 (⟨[5, 7, 7, 9], 3⟩ : ListState Nat) 7 = Except.ok r ∧
        contains 4 (⟨[5, 7, 7, 9], 3⟩ : ListState Nat) 7 = Except.ok (decide (r ≠ -1)) ∧
        (decide (r ≠ -1) = true ↔ ∃ i, i < getCount (⟨[5, 7, 7, 9], 3⟩ : ListState Nat) ∧
          index (⟨[5, 7, 7, 9], 3⟩ : ListState Nat) i = Except.ok 7) :=
  ⟨(contains_iff_indexOf 4 4 ⟨[5, 7, 7, 9], 3⟩ 7).1,
    (contains_iff_indexOf 4 4 ⟨[5, 7, 7, 9], 3⟩ 7).2 (by decide) rfl (by decide) (by decide)⟩

/-! ## `resize` to a larger size, and beyond the capacity -/

/-- The call `resize(3)` on `[1]` with stale values above the count, capacity `4`. -/
theorem resize_grow_example :
    resize id 0 4 4 (⟨[1, 2, 3, 2], 1⟩ : ListState Nat) 3 =
      Except.ok (true, ⟨[1, 0, 0, 2], 3⟩) := rfl

theorem resize_eq_of_gt_capacity (destroy : α → α) (dflt : α) (cap fuel : Nat)
    (s : ListState α) (newSize : Nat) (hcap : cap < 128) (hle : s.next ≤ cap)
    (hgt : cap < newSize) :
    resize destroy dflt cap fuel s newSize = Except.ok (false, s) := by
  have h0 : ¬ (newSize = getCount s) := by simp only [getCount]; omega
  have hc : getCapacity cap = cap := Nat.mod_eq_of_lt (by omega)
  have h1 : newSize > getCapacity cap := by rw [hc]; omega
  simp only [resize, h0, h1, if_false, if_true]

/-- C14: for `count <= Capacity` and `newSize > Capacity`, `resize(newSize)` returns `false`
and the state, count and every slot, is the one before the call. -/
theorem resize_beyond_capacity (destroy : α → α) (dflt : α) (cap fuel : Nat)
    (s : ListState α) (newSize : Nat) (hcap : cap < 128) (hle : getCount s ≤ cap)
    (hgt : cap < newSize) :
    resize destroy dflt cap fuel s newSize = Except.ok (false, s) :=
  resize_eq_of_gt_capacity destroy dflt cap fuel s newSize hcap hle hgt

theorem resize_beyond_capacity_witness :
    resize id 0 3 3 (⟨[1, 2, 3], 2⟩ : ListState Nat) 4 = Except.ok (false, ⟨[1, 2, 3], 2⟩) :=
  resize_beyond_capacity id 0 3 3 ⟨[1, 2, 3], 2⟩ 4 (by decide) (by decide) (by decide)

/-! ## `getFirstIndex` and `getLastIndex` -/

/-- C19: `getLastIndex()` returns `0` when the count is `0` and `count - 1` otherwise, so it
returns `0` both for the empty list and for a list of exactly one element;
`getFirstIndex()` returns `0`. -/
theorem getLastIndex_value (s : ListState α) (h256 : getCount s < 256) :
    getLastIndex s = (if getCount s = 0 then 0 else getCount s - 1) ∧
      (getCount s = 0 → getLastIndex s = 0) ∧
      (getCount s = 1 → getLastIndex s = 0) ∧
      getFirstIndex = 0 := by
  simp only [getCount] at h256 ⊢
  have hval : getLastIndex s = (if s.next = 0 then 0 else s.next - 1) := by
    by_cases h0 : s.next = 0
    · simp [getLastIndex, isEmpty, FirstIndex, getFirstIndex, h0]
    · have hmod : (s.next + 255) % 256 = s.next - 1 := by omega
      simp [getLastIndex, isEmpty, FirstIndex, h0, hmod]
  refine ⟨hval, ?_, ?_, rfl⟩
  · intro h0
    rw [hval, if_pos h0]
  · intro h1
    rw [hval, h1]
    rfl

theorem getLastIndex_value_witness :
    getLastIndex (⟨[4, 5, 6], 3⟩ : ListState Nat) =
        (if getCount (⟨[4, 5, 6], 3⟩ : ListState Nat) = 0 then 0
          else getCount (⟨[4, 5, 6], 3⟩ : ListState Nat) - 1) ∧
      (getCount (⟨[4, 5, 6], 3⟩ : ListState Nat) = 0 →
        getLastIndex (⟨[4, 5, 6], 3⟩ : ListState Nat) = 0) ∧
      (getCount (⟨[4, 5, 6], 3⟩ : ListState Nat) = 1 →
        getLastIndex (⟨[4, 5, 6], 3⟩ : ListState Nat) = 0) ∧
      getFirstIndex = 0 :=
  getLastIndex_value ⟨[4, 5, 6], 3⟩ (by decide)

/-- The last index of an empty list, of a one-element list and of a three-element list. -/
theorem getLastIndex_examples :
    getLastIndex (⟨[0, 0, 0], 0⟩ : ListState Nat) = 0 ∧
      getLastIndex (⟨[4, 0, 0], 1⟩ : ListState Nat) = 0 ∧
      getLastIndex (⟨[4, 5, 6], 3⟩ : ListState Nat) = 2 :=
  ⟨rfl, rfl, rfl⟩

/-! ## `insert` -/

theorem insertLoop_spec (next : Nat) (hnext : next < 256) :
    ∀ (fuel i : Nat) (items : List α), 1 ≤ i → i ≤ next → next ≤ items.length →
      next - i ≤ fuel →
      ∃ r : List α, insertLoop next fuel i items = Except.ok r ∧
        r.length = items.length ∧
        ∀ j, r[j]? = if i ≤ j ∧ j < next then items[i - 1]? else items[j]? := by
  intro fuel
  induction fuel with
  | zero =>
    intro i items _ hi hlen hfuel
    have hnot : ¬ i < next := by omega
    refine ⟨items, by simp [insertLoop, hnot], rfl, ?_⟩
    intro j
    have : ¬ (i ≤ j ∧ j < next) := by omega
    simp [this]
  | succ f ih =>
    intro i items h1 hi hlen hfuel
    by_cases hlt : i < next
    · have hread : i - 1 < items.length := by omega
      have hwrite : i < items.length := by omega
      have hi0 : ¬ i = 0 := by omega
      have hmod : (i + 1) % 256 = i + 1 := Nat.mod_eq_of_lt (by omega)
      obtain ⟨r, hr, hrlen, hrget⟩ := ih (i + 1) (items.set i items[i - 1]) (by omega)
        (by omega) (by simpa using hlen) (by omega)
      refine ⟨r, ?_, by simpa using hrlen, ?_⟩
      · simp [insertLoop, hlt, hi0, readAt_of_lt items (i - 1) hread, Move,
          writeAt_of_lt items i _ hwrite, hmod, hr, bind, Except.bind]
      · intro j
        rw [hrget j]
        have hset : (items.set i items[i - 1])[i]? = items[i - 1]? := by
          simp [hwrite, List.getElem?_eq_getElem hread]
        by_cases hji : j = i
        · subst hji
          have h1 : ¬ (j + 1 ≤ j ∧ j < next) := by omega
          have h2 : j ≤ j ∧ j < next := by omega
          rw [if_neg h1, if_pos h2, hset]
        · by_cases hc : i + 1 ≤ j ∧ j < next
          · have h2 : i ≤ j ∧ j < next := by omega
            rw [if_pos hc, if_pos h2]
            simp only [Nat.add_sub_cancel]
            exact hset
          · have h2 : ¬ (i ≤ j ∧ j < next) := by omega
            have hne : i ≠ j := fun h => hji h.symm
            rw [if_neg hc, if_neg h2, List.getElem?_set_ne hne]
    · refine ⟨items, by simp [insertLoop, hlt], rfl, ?_⟩
      intro j
      have : ¬ (i ≤ j ∧ j < next) := by omega
      simp [this]

/-- What `insert` does on a list that is not full for `index <= count`, slot by slot. -/
theorem insert_slots (cap fuel : Nat) (s : ListState α) (idx : Nat) (item : α)
    (hcap : cap < 128) (hlen : s.items.length = cap) (hnf : s.next < cap)
    (hidx : idx ≤ s.next) (hfuel : s.next - idx ≤ fuel) :
    ∃ r : List α, insert cap fuel s idx item = Except.ok (true, ⟨r, s.next + 1⟩) ∧
      r.length = s.items.length ∧
      ∀ j, r[j]? = if j = idx then some item
        else if idx < j ∧ j ≤ s.next then s.items[idx]? else s.items[j]? := by
  have hmod : (s.next + 1) % 256 = s.next + 1 := Nat.mod_eq_of_lt (by omega)
  have hmod2 : (idx + 1) % 256 = idx + 1 := Nat.mod_eq_of_lt (by omega)
  obtain ⟨r, hr, hrlen, hrget⟩ := insertLoop_spec (s.next + 1) (by omega) fuel (idx + 1)
    s.items (by omega) (by omega) (by omega) (by omega)
  have hw : idx < r.length := by omega
  refine ⟨r.set idx item, ?_, by simp [hrlen], ?_⟩
  · simp [insert_of_values, isFull_eq_false cap s hcap hnf, hmod, hmod2, hr,
      writeAt_of_lt r idx item hw, bind, Except.bind]
  · intro j
    by_cases hj : j = idx
    · subst hj
      simp [hw]
    · have hne : idx ≠ j := fun h => hj h.symm
      rw [List.getElem?_set_ne hne, hrget j, if_neg hj]
      by_cases hc : idx < j ∧ j ≤ s.next
      · have h2 : idx + 1 ≤ j ∧ j < s.next + 1 := by omega
        simp [hc, h2]
      · have h2 : ¬ (idx + 1 ≤ j ∧ j < s.next + 1) := by omega
        simp [hc, h2]

/-- C18: for `count <= Capacity`, `insert(count, item)` returns the same result and leaves
the same state as `add(item)`, whatever the number of loop iterations allowed. -/
theorem insert_at_count_eq_add (cap fuel : Nat) (s : ListState α) (item : α)
    (hcap : cap < 128) (hle : getCount s ≤ cap) :
    insert cap fuel s (getCount s) item = add cap s item := by
  simp only [getCount] at hle ⊢
  have hmod : (s.next + 1) % 256 = s.next + 1 := Nat.mod_eq_of_lt (by omega)
  have hloop : insertLoop (s.next + 1) fuel (s.next + 1) s.items = Except.ok s.items := by
    cases fuel <;> simp [insertLoop]
  cases hfull : isFull cap s
  · simp [insert_of_values, add, hfull, hmod, hloop, bind, Except.bind]
  · simp [insert_of_values, add, hfull]

theorem insert_at_count_eq_add_witness :
    insert 3 0 (⟨[1, 2, 0], 2⟩ : ListState Nat) (getCount (⟨[1, 2, 0], 2⟩ : ListState Nat)) 9 =
      add 3 (⟨[1, 2, 0], 2⟩ : ListState Nat) 9 :=
  insert_at_count_eq_add 3 0 ⟨[1, 2, 0], 2⟩ 9 (by decide) (by decide)

/-- With arguments outside the array: on a list that is not full, for `index < count`,
`insert(index, item)` returns `true` with the count raised by one, slot `index` holding the
item, the slots below `index` unchanged, and every slot `j` with `index < j <= old count`
holding what slot `index` held before the call; when `index` is `count - 1` this is the
reference insertion `L[0..index) ++ [item] ++ L[index..count)`. -/
theorem insert_below_count (cap fuel : Nat) (s : ListState α) (idx : Nat) (item : α)
    (hcap : cap < 128) (hlen : s.items.length = cap) (hnf : getCount s < cap)
    (hidx : idx < getCount s) (hfuel : getCount s - idx ≤ fuel) :
    ∃ s1 : ListState α, insert cap fuel s idx item = Except.ok (true, s1) ∧
      getCount s1 = getCount s + 1 ∧
      index s1 idx = Except.ok item ∧
      (∀ j, j < idx → index s1 j = index s j) ∧
      (∀ j, idx < j → j ≤ getCount s → index s1 j = index s idx) ∧
      (getCount s - 1 ≤ idx →
        live s1 = (live s).take idx ++ [item] ++ (live s).drop idx) := by
  simp only [getCount] at hnf hidx hfuel ⊢
  obtain ⟨r, hrun, hrlen, hrget⟩ :=
    insert_slots cap fuel s idx item hcap hlen hnf (by omega) hfuel
  refine ⟨⟨r, s.next + 1⟩, hrun, rfl, ?_, ?_, ?_, ?_⟩
  · have h := hrget idx
    rw [if_pos rfl] at h
    simp [index, readAt, h]
  · intro j hj
    have h := hrget j
    have h1 : ¬ j = idx := by omega
    have h2 : ¬ (idx < j ∧ j ≤ s.next) := by omega
    rw [if_neg h1, if_neg h2] at h
    simp [index, readAt, h]
  · intro j hj1 hj2
    have h := hrget j
    have h1 : ¬ j = idx := by omega
    rw [if_neg h1, if_pos ⟨hj1, hj2⟩] at h
    simp [index, readAt, h]
  · intro hlast
    have hiv : idx + 1 = s.next := by omega
    apply List.ext_getElem?
    intro j
    have htake : (List.take idx (List.take s.next s.items)).length = idx := by
      simp only [List.length_take]
      omega
    simp only [live, List.getElem?_take, hrget j, List.append_assoc]
    by_cases hj : j < idx
    · have h1 : ¬ j = idx := by omega
      have h2 : ¬ (idx < j ∧ j ≤ s.next) := by omega
      have h3 : j < s.next + 1 := by omega
      have h4 : j < s.next := by omega
      rw [List.getElem?_append_left (by omega)]
      simp [h1, h2, h3, h4, hj, List.getElem?_take]
    · rw [List.getElem?_append_right (by omega), htake]
      by_cases hje : j = idx
      · subst hje
        have h3 : j < s.next + 1 := by omega
        simp [h3]
      · have hsub : j - idx = (j - idx - 1) + 1 := by omega
        rw [hsub, List.singleton_append, List.getElem?_cons_succ, List.getElem?_drop,
          List.getElem?_take]
        have hidxj : idx + (j - idx - 1) = j - 1 := by omega
        rw [hidxj]
        by_cases hjn : j = s.next
        · have h2 : idx < j ∧ j ≤ s.next := by omega
          have h3 : j < s.next + 1 := by omega
          have h4 : j - 1 < s.next := by omega
          have h5 : j - 1 = idx := by omega
          simp [hje, h2, h3, h4, h5, hidx]
        · have h3 : ¬ j < s.next + 1 := by omega
          have h4 : ¬ j - 1 < s.next := by omega
          simp [h3, h4]

theorem insert_below_count_witness :
    ∃ s1 : ListState Nat, insert 4 4 ⟨[1, 2, 3, 0], 3⟩ 2 9 = Except.ok (true, s1) ∧
      getCount s1 = getCount (⟨[1, 2, 3, 0], 3⟩ : ListState Nat) + 1 ∧
      index s1 2 = Except.ok 9 ∧
      (∀ j, j < 2 → index s1 j = index (⟨[1, 2, 3, 0], 3⟩ : ListState Nat) j) ∧
      (∀ j, 2 < j → j ≤ getCount (⟨[1, 2, 3, 0], 3⟩ : ListState Nat) →
        index s1 j = index (⟨[1, 2, 3, 0], 3⟩ : ListState Nat) 2) ∧
      (getCount (⟨[1, 2, 3, 0], 3⟩ : ListState Nat) - 1 ≤ 2 →
        live s1 = (live (⟨[1, 2, 3, 0], 3⟩ : ListState Nat)).take 2 ++ [9] ++
          (live (⟨[1, 2, 3, 0], 3⟩ : ListState Nat)).drop 2) :=
  insert_below_count 4 4 ⟨[1, 2, 3, 0], 3⟩ 2 9 (by decide) rfl (by decide) (by decide)
    (by decide)

/-- The call `insert(2, 9)` on `[1, 2, 3]`, at the last live index: the reference result. -/
theorem insert_at_last_example :
    insert 4 4 (⟨[1, 2, 3, 0], 3⟩ : ListState Nat) 2 9 =
      Except.ok (true, ⟨[1, 2, 9, 3], 4⟩) := rfl

/-! ## `insert` with an item argument that may be a slot of the list -/

theorem readAt_eq_ok_iff (items : List α) (k : Nat) (v : α) :
    readAt items k = Except.ok v ↔ items[k]? = some v := by
  simp only [readAt]
  cases h : items[k]? with
  | none => simp
  | some w => simp

/-- What `insert` does on a list that is not full for an index `index <= count` given by
value and an item argument readable at the call, slot by slot: `w` is what the final write
stores. -/
theorem insertRef_slots (cap fuel : Nat) (s : ListState α) (idx : Nat) (a : ItemRef α)
    (v0 : α) (hcap : cap < 128) (hlen : s.items.length = cap) (hnf : s.next < cap)
    (hidx : idx ≤ s.next) (hfuel : s.next - idx ≤ fuel)
    (hread : readItemRef s.items a = Except.ok v0) :
    ∃ (r : List α) (w : α),
      insertRef cap fuel s (IndexRef.value idx) a = Except.ok (true, ⟨r, s.next + 1⟩) ∧
      r.length = s.items.length ∧
      (a.inSlots idx s.next = false → w = v0) ∧
      (a.inSlots idx s.next = true → s.items[idx]? = some w) ∧
      ∀ j, r[j]? = if j = idx then some w
        else if idx < j ∧ j ≤ s.next then s.items[idx]? else s.items[j]? := by
  have hmod : (s.next + 1) % 256 = s.next + 1 := Nat.mod_eq_of_lt (by omega)
  have hmod2 : (idx + 1) % 256 = idx + 1 := Nat.mod_eq_of_lt (by omega)
  obtain ⟨r, hr, hrlen, hrget⟩ := insertLoop_spec (s.next + 1) (by omega) fuel (idx + 1)
    s.items (by omega) (by omega) (by omega) (by omega)
  have hw : idx < r.length := by omega
  have hidxlt : idx < s.items.length := by omega
  have hitem : ∃ w : α, readItemRef r a = Except.ok w ∧
      (a.inSlots idx s.next = false → w = v0) ∧
      (a.inSlots idx s.next = true → s.items[idx]? = some w) := by
    cases a with
    | value v =>
      have hv : v = v0 := by
        simp only [readItemRef] at hread
        injection hread
      exact ⟨v, rfl, fun _ => hv, fun h => by simp [ItemRef.inSlots] at h⟩
    | slot k =>
      have hk : s.items[k]? = some v0 := (readAt_eq_ok_iff s.items k v0).mp hread
      by_cases hc : idx < k ∧ k ≤ s.next
      · have h2 : idx + 1 ≤ k ∧ k < s.next + 1 := by omega
        have hrk : r[k]? = some s.items[idx] := by
          rw [hrget k, if_pos h2]
          simp [List.getElem?_eq_getElem hidxlt]
        refine ⟨s.items[idx], (readAt_eq_ok_iff r k _).mpr hrk, ?_, ?_⟩
        · intro h
          simp [ItemRef.inSlots, hc] at h
        · intro _
          exact List.getElem?_eq_getElem hidxlt
      · have h2 : ¬ (idx + 1 ≤ k ∧ k < s.next + 1) := by omega
        have hrk : r[k]? = some v0 := by
          rw [hrget k, if_neg h2]
          exact hk
        refine ⟨v0, (readAt_eq_ok_iff r k _).mpr hrk, fun _ => rfl, ?_⟩
        intro h
        simp [ItemRef.inSlots, hc] at h
  obtain ⟨w, hwread, hw1, hw2⟩ := hitem
  refine ⟨r.set idx w, w, ?_, by simp [hrlen], hw1, hw2, ?_⟩
  · simp [insertRef, isFull_eq_false cap s hcap hnf, readIndexRef, hmod, hmod2, hr, hwread,
      writeAt_of_lt r idx w hw, bind, Except.bind]
  · intro j
    by_cases hj : j = idx
    · subst hj
      simp [hw]
    · have hne : idx ≠ j := fun h => hj h.symm
      rw [List.getElem?_set_ne hne, hrget j, if_neg hj]
      by_cases hc : idx < j ∧ j ≤ s.next
      · have h2 : idx + 1 ≤ j ∧ j < s.next + 1 := by omega
        simp [hc, h2]
      · have h2 : ¬ (idx + 1 ≤ j ∧ j < s.next + 1) := by omega
        simp [hc, h2]

/-- C20 (as amended): on a list that is not full, for an index `index < count` given by
value and an item argument that is an object outside the list or one of its slots,
`insert(index, item)` returns `true` with the count raised by one, the slots below `index`
unchanged and every slot `j` with `index < j <= old count` holding what slot `index` held
before the call.  Slot `index` holds the value the item had at the call unless the item is
one of the slots `index + 1, ..., count`, which the loop overwrites before the item is read:
then slot `index` keeps its old value.  When `index` is `count - 1` and the item is not
slot `count`, the result is the reference insertion `L[0..index) ++ [item] ++ L[index..count)`. -/
theorem insertRef_below_count (cap fuel : Nat) (s : ListState α) (idx : Nat) (a : ItemRef α)
    (v0 : α) (hcap : cap < 128) (hlen : s.items.length = cap) (hnf : getCount s < cap)
    (hidx : idx < getCount s) (hfuel : getCount s - idx ≤ fuel)
    (hread : readItemRef s.items a = Except.ok v0) :
    ∃ s1 : ListState α,
      insertRef cap fuel s (IndexRef.value idx) a = Except.ok (true, s1) ∧
      getCount s1 = getCount s + 1 ∧
      (a.inSlots idx (getCount s) = false → index s1 idx = Except.ok v0) ∧
      (a.inSlots idx (getCount s) = true → index s1 idx = index s idx) ∧
      (∀ j, j < idx → index s1 j = index s j) ∧
      (∀ j, idx < j → j ≤ getCount s → index s1 j = index s idx) ∧
      (getCount s - 1 ≤ idx → a.inSlots idx (getCount s) = false →
        live s1 = (live s).take idx ++ [v0] ++ (live s).drop idx) := by
  simp only [getCount] at hnf hidx hfuel ⊢
  obtain ⟨r, w, hrun, hrlen, hw1, hw2, hrget⟩ :=
    insertRef_slots cap fuel s idx a v0 hcap hlen hnf (by omega) hfuel hread
  have hslot : r[idx]? = some w := by
    have h := hrget idx
    rw [if_pos rfl] at h
    exact h
  refine ⟨⟨r, s.next + 1⟩, hrun, rfl, ?_, ?_, ?_, ?_, ?_⟩
  · intro hna
    rw [← hw1 hna]
    simp [index, readAt, hslot]
  · intro ha
    simp [index, readAt, hslot, hw2 ha]
  · intro j hj
    have h := hrget j
    have h1 : ¬ j = idx := by omega
    have h2 : ¬ (idx < j ∧ j ≤ s.next) := by omega
    rw [if_neg h1, if_neg h2] at h
    simp [index, readAt, h]
  · intro j hj1 hj2
    have h := hrget j
    have h1 : ¬ j = idx := by omega
    rw [if_neg h1, if_pos ⟨hj1, hj2⟩] at h
    simp [index, readAt, h]
  · intro hlast hna
    have hwv : w = v0 := hw1 hna
    have hiv : idx + 1 = s.next := by omega
    apply List.ext_getElem?
    intro j
    have htake : (List.take idx (List.take s.next s.items)).length = idx := by
      simp only [List.length_take]
      omega
    simp only [live, List.getElem?_take, hrget j, List.append_assoc]
    by_cases hj : j < idx
    · have h1 : ¬ j = idx := by omega
      have h2 : ¬ (idx < j ∧ j ≤ s.next) := by omega
      have h3 : j < s.next + 1 := by omega
      have h4 : j < s.next := by omega
      rw [List.getElem?_append_left (by omega)]
      simp [h1, h2, h3, h4, hj, List.getElem?_take]
    · rw [List.getElem?_append_right (by omega), htake]
      by_cases hje : j = idx
      · subst hje
        have h3 : j < s.next + 1 := by omega
        simp [h3, hwv]
      · have hsub : j - idx = (j - idx - 1) + 1 := by omega
        rw [hsub, List.singleton_append, List.getElem?_cons_succ, List.getElem?_drop,
          List.getElem?_take]
        have hidxj : idx + (j - idx - 1) = j - 1 := by omega
        rw [hidxj]
        by_cases hjn : j = s.next
        · have h2 : idx < j ∧ j ≤ s.next := by omega
          have h3 : j < s.next + 1 := by omega
          have h4 : j - 1 < s.next := by omega
          have h5 : j - 1 = idx := by omega
          simp [hje, h2, h3, h4, h5, hidx]
        · have h3 : ¬ j < s.next + 1 := by omega
          have h4 : ¬ j - 1 < s.next := by omega
          simp [h3, h4]

theorem insertRef_below_count_witness :
    ∃ s1 : ListState Nat,
      insertRef 4 4 ⟨[1, 2, 3, 0], 3⟩ (IndexRef.value 2) (ItemRef.slot 0) =
        Except.ok (true, s1) ∧
      getCount s1 = getCount (⟨[1, 2, 3, 0], 3⟩ : ListState Nat) + 1 ∧
      ((ItemRef.slot 0 : ItemRef Nat).inSlots 2 (getCount (⟨[1, 2, 3, 0], 3⟩ : ListState Nat))
          = false → index s1 2 = Except.ok 1) ∧
      ((ItemRef.slot 0 : ItemRef Nat).inSlots 2 (getCount (⟨[1, 2, 3, 0], 3⟩ : ListState Nat))
          = true → index s1 2 = index (⟨[1, 2, 3, 0], 3⟩ : ListState Nat) 2) ∧
      (∀ j, j < 2 → index s1 j = index (⟨[1, 2, 3, 0], 3⟩ : ListState Nat) j) ∧
      (∀ j, 2 < j → j ≤ getCount (⟨[1, 2, 3, 0], 3⟩ : ListState Nat) →
        index s1 j = index (⟨[1, 2, 3, 0], 3⟩ : ListState Nat) 2) ∧
      (getCount (⟨[1, 2, 3, 0], 3⟩ : ListState Nat) - 1 ≤ 2 →
        (ItemRef.slot 0 : ItemRef Nat).inSlots 2
          (getCount (⟨[1, 2, 3, 0], 3⟩ : ListState Nat)) = false →
        live s1 = (live (⟨[1, 2, 3, 0], 3⟩ : ListState Nat)).take 2 ++ [1] ++
          (live (⟨[1, 2, 3, 0], 3⟩ : ListState Nat)).drop 2) :=
  insertRef_below_count 4 4 ⟨[1, 2, 3, 0], 3⟩ 2 (ItemRef.slot 0) 1 (by decide) rfl
    (by decide) (by decide) (by decide) rfl

/-- C20 (the claim as first stated, refuted): on `[1, 2, 3]` in a list of capacity `4` the
call `insert(0, l[2])`, whose item is the list's own slot `2` and has the value `3` at the
call, returns `true` with the array `[1, 1, 1, 1]`: the loop has overwritten slot `2` before
the item is read, and slot `0` holds `1`, not the item `3`. -/
theorem insert_own_slot_not_stored :
    readItemRef [1, 2, 3, 0] (ItemRef.slot 2 : ItemRef Nat) = Except.ok 3 ∧
      insertRef 4 4 (⟨[1, 2, 3, 0], 3⟩ : ListState Nat) (IndexRef.value 0) (ItemRef.slot 2) =
        Except.ok (true, ⟨[1, 1, 1, 1], 4⟩) ∧
      index (⟨[1, 1, 1, 1], 4⟩ : ListState Nat) 0 ≠ Except.ok 3 :=
  ⟨rfl, rfl, by simp [index, readAt]⟩

/-- The same call with the value `3` passed as an object outside the list. -/
theorem insert_value_three_example :
    insertRef 4 4 (⟨[1, 2, 3, 0], 3⟩ : ListState Nat) (IndexRef.value 0) (ItemRef.value 3) =
      Except.ok (true, ⟨[3, 1, 1, 1], 4⟩) := rfl

/-- On a full list `insert` returns `false` with the state unchanged whatever its two
arguments refer to: it returns before reading either. -/
theorem insertRef_of_full (cap fuel : Nat) (s : ListState α) (i : IndexRef α)
    (a : ItemRef α) (hcap : cap < 128) (hfull : s.next = cap) :
    insertRef cap fuel s i a = Except.ok (false, s) := by
  have h : isFull cap s = true := (isFull_iff cap s hcap).mpr hfull
  simp [insertRef, h]

/-- At `index = count` the loop body never runs, so `insert` with any item argument readable
at the call does what `add` does with the value the item has at the call. -/
theorem insertRef_at_count (cap fuel : Nat) (s : ListState α) (a : ItemRef α) (v0 : α)
    (hcap : cap < 128) (hle : s.next ≤ cap) (hread : readItemRef s.items a = Except.ok v0) :
    insertRef cap fuel s (IndexRef.value s.next) a = add cap s v0 := by
  have hmod : (s.next + 1) % 256 = s.next + 1 := Nat.mod_eq_of_lt (by omega)
  have hloop : insertLoop (s.next + 1) fuel (s.next + 1) s.items = Except.ok s.items := by
    cases fuel <;> simp [insertLoop]
  cases hfull : isFull cap s
  · simp [insertRef, add, hfull, readIndexRef, hmod, hloop, hread, bind, Except.bind]
  · simp [insertRef, add, hfull]

/-- From a valid state that is not full, `insert` with an index `index <= count` given by
value and any item argument readable at the call returns a valid state. -/
theorem insertRef_valid (cap fuel : Nat) (s : ListState α) (idx : Nat) (a : ItemRef α)
    (v0 : α) (hcap : cap < 128) (hv : Valid cap s) (hnf : s.next < cap) (hidx : idx ≤ s.next)
    (hfuel : s.next - idx ≤ fuel) (hread : readItemRef s.items a = Except.ok v0) :
    ∃ r, insertRef cap fuel s (IndexRef.value idx) a = Except.ok r ∧ Valid cap r.2 := by
  obtain ⟨hlen, _⟩ := hv
  obtain ⟨r, w, hrun, hrlen, _⟩ :=
    insertRef_slots cap fuel s idx a v0 hcap hlen hnf hidx hfuel hread
  refine ⟨_, hrun, ?_, ?_⟩
  · simp only
    omega
  · simp only [getCount]
    omega

theorem insertRef_valid_witness :
    ∃ r, insertRef 4 4 (⟨[1, 2, 3, 0], 3⟩ : ListState Nat) (IndexRef.value 0) (ItemRef.slot 2) =
      Except.ok r ∧ Valid 4 r.2 :=
  insertRef_valid 4 4 ⟨[1, 2, 3, 0], 3⟩ 0 (ItemRef.slot 2) 3 (by decide) ⟨rfl, by decide⟩
    (by decide) (by decide) (by decide) rfl

/-- A call on a list of `uint8_t` whose index argument is the list's own slot `2`: the index
is `0` when the loop starts and `1` when the final write is made. -/
theorem insert_own_slot_as_index_example :
    insertRef 4 4 (⟨[1, 7, 0, 9], 3⟩ : ListState Nat) (IndexRef.inSlot 2 id) (ItemRef.value 5) =
      Except.ok (true, ⟨[1, 5, 1, 1], 4⟩) := rfl

/-! ## `add` followed by `remove` -/

/-- What `remove` does for an item some live slot holds. -/
theorem remove_of_mem [DecidableEq α] (destroy : α → α) (cap fuel : Nat) (s : ListState α)
    (item : α) (hcap : cap < 128) (hlen : s.items.length = cap) (hle : s.next ≤ cap)
    (hmem : item ∈ live s) (hfuel : s.next ≤ fuel) :
    ∃ s1 : ListState α, remove destroy fuel s item = Except.ok (true, s1) ∧
      s1.next + 1 = s.next ∧ s1.items.length = s.items.length ∧
      live s1 = (live s).erase item := by
  obtain ⟨k, hk, hitem, hfirst⟩ := exists_first_of_mem_live s item hmem
  have hloop := removeLoop_found destroy item fuel s k hk (by omega) (by omega) hitem fuel 0
    (Nat.zero_le k) (fun j _ hj => hfirst j hj) (by omega)
  obtain ⟨s1, hrun, hn, hl, _, hlive⟩ :=
    removeAt_live destroy cap fuel s k hcap hlen hle hk hfuel
  refine ⟨s1, ?_, hn, hl, ?_⟩
  · simp [remove, hloop, hrun, Except.map]
  · rw [hlive]
    symm
    apply erase_eq_eraseIdx_of_first item (live s) k
    · rw [getElem?_live s k hk]
      exact hitem
    · intro j hj
      rw [getElem?_live s j (by omega)]
      exact hfirst j hj

/-- C16: on a list that is not full, for an item `X` that equals no live element, `add(X)`
and the `remove(X)` right after it both return `true`, and the list then has the count and
the live content it had before the `add`. -/
theorem add_then_remove [DecidableEq α] (destroy : α → α) (cap fuel : Nat) (s : ListState α)
    (x : α) (hcap : cap < 128) (hlen : s.items.length = cap) (hnf : getCount s < cap)
    (hnew : x ∉ live s) (hfuel : getCount s + 1 ≤ fuel) :
    ∃ s1 s2 : ListState α, add cap s x = Except.ok (true, s1) ∧
      remove destroy fuel s1 x = Except.ok (true, s2) ∧
      getCount s2 = getCount s ∧ live s2 = live s := by
  simp only [getCount] at hnf hfuel ⊢
  have hlt : s.next < s.items.length := by omega
  have hadd := add_eq_of_not_full cap s x hcap hlen hnf
  have hlive := live_set_next s x hlt
  generalize hs1 : (⟨s.items.set s.next x, s.next + 1⟩ : ListState α) = s1 at hadd hlive
  have hlen1 : s1.items.length = cap := by rw [← hs1]; simpa using hlen
  have hnext1 : s1.next = s.next + 1 := by rw [← hs1]
  have hmem : x ∈ live s1 := by rw [hlive]; simp
  obtain ⟨s2, hrem, hn2, _, hlive2⟩ :=
    remove_of_mem destroy cap fuel s1 x hcap hlen1 (by omega) hmem (by omega)
  refine ⟨s1, s2, hadd, hrem, by omega, ?_⟩
  rw [hlive2, hlive, List.erase_append_right _ hnew]
  simp

theorem add_then_remove_witness :
    ∃ s1 s2 : ListState Nat, add 3 ⟨[1, 2, 7], 2⟩ 5 = Except.ok (true, s1) ∧
      remove id 3 s1 5 = Except.ok (true, s2) ∧
      getCount s2 = getCount (⟨[1, 2, 7], 2⟩ : ListState Nat) ∧
      live s2 = live (⟨[1, 2, 7], 2⟩ : ListState Nat) :=
  add_then_remove id 3 3 ⟨[1, 2, 7], 2⟩ 5 (by decide) rfl (by decide) (by decide) (by decide)

/-! ## `clear`, and filling the list a second time -/

theorem clearLoop_spec (destroy : α → α) (next : Nat) (hnext : next < 256) :
    ∀ (fuel i : Nat) (items : List α), i ≤ next → next ≤ items.length → next - i ≤ fuel →
      ∃ r : List α, clearLoop destroy next fuel i items = Except.ok r ∧
        r.length = items.length ∧
        ∀ j, r[j]? = if i ≤ j ∧ j < next then items[j]?.map destroy else items[j]? := by
  intro fuel
  induction fuel with
  | zero =>
    intro i items hi hlen hfuel
    have hnot : ¬ i < next := by omega
    refine ⟨items, by simp [clearLoop, hnot], rfl, ?_⟩
    intro j
    have : ¬ (i ≤ j ∧ j < next) := by omega
    simp [this]
  | succ f ih =>
    intro i items hi hlen hfuel
    by_cases hlt : i < next
    · have hin : i < items.length := by omega
      have hmod : (i + 1) % 256 = i + 1 := Nat.mod_eq_of_lt (by omega)
      obtain ⟨r, hr, hrlen, hrget⟩ := ih (i + 1) (items.set i (destroy items[i])) (by omega)
        (by simpa using hlen) (by omega)
      refine ⟨r, ?_, by simpa using hrlen, ?_⟩
      · simp [clearLoop, hlt, destroyAt_of_lt destroy items i hin, hmod, hr, bind,
          Except.bind]
      · intro j
        rw [hrget j]
        by_cases hji : j = i
        · subst hji
          have h1 : ¬ (j + 1 ≤ j ∧ j < next) := by omega
          have h2 : j ≤ j ∧ j < next := by omega
          rw [if_neg h1, if_pos h2]
          simp [hin, List.getElem?_eq_getElem hin]
        · have hne : i ≠ j := fun h => hji h.symm
          by_cases hc : i + 1 ≤ j ∧ j < next
          · have h2 : i ≤ j ∧ j < next := by omega
            rw [if_pos hc, if_pos h2, List.getElem?_set_ne hne]
          · have h2 : ¬ (i ≤ j ∧ j < next) := by omega
            rw [if_neg hc, if_neg h2, List.getElem?_set_ne hne]
    · refine ⟨items, by simp [clearLoop, hlt], rfl, ?_⟩
      intro j
      have : ¬ (i ≤ j ∧ j < next) := by omega
      simp [this]

/-- On a list with `count <= Capacity`, `clear` returns with the count at `0`. -/
theorem clear_spec (destroy : α → α) (cap fuel : Nat) (s : ListState α) (hcap : cap < 128)
    (hlen : s.items.length = cap) (hle : s.next ≤ cap) (hfuel : s.next ≤ fuel) :
    ∃ r : List α, clear destroy fuel s = Except.ok ⟨r, 0⟩ ∧ r.length = s.items.length ∧
      ∀ j, r[j]? = if j < s.next then s.items[j]?.map destroy else s.items[j]? := by
  obtain ⟨r, hr, hrlen, hrget⟩ := clearLoop_spec destroy s.next (by omega) fuel 0 s.items
    (Nat.zero_le _) (by omega) (by omega)
  refine ⟨r, by simp [clear, hr, bind, Except.bind], hrlen, ?_⟩
  intro j
  rw [hrget j]
  simp

/-- On a list with `count <= Capacity`, `contains` tells whether the item is live. -/
theorem contains_eq_decide_mem [DecidableEq α] (cap fuel : Nat) (s : ListState α) (x : α)
    (hcap : cap < 128) (hlen : s.items.length = cap) (hle : s.next ≤ cap)
    (hfuel : s.next ≤ fuel) :
    contains fuel s x = Except.ok (decide (x ∈ live s)) := by
  by_cases hmem : x ∈ live s
  · obtain ⟨k, hk, hitem, hfirst⟩ := exists_first_of_mem_live s x hmem
    have hidx := indexOf_of_first cap fuel s x k hcap hlen hle hfuel hk hitem hfirst
    have hne : (k : Int) ≠ -1 := by omega
    simp [contains, hidx, bind, Except.bind, hne, hmem]
  · have habsent : ∀ j, j < s.next → s.items[j]? ≠ some x := by
      intro j hj h
      exact hmem ((mem_live_iff s x).mpr ⟨j, hj, h⟩)
    have hidx := indexOf_of_absent cap fuel s x hcap hlen hle hfuel habsent
    simp [contains, hidx, bind, Except.bind, hmem]

theorem addAll_trace_all_true (cap n : Nat) (hn : n ≤ cap) (p : Bool × Nat)
    (hp : p ∈ (List.range n).map (fun k => (decide (0 + k < cap), min (0 + k + 1) cap))) :
    p.1 = true := by
  obtain ⟨k, hk, hkp⟩ := List.mem_map.mp hp
  have hkn : k < n := List.mem_range.mp hk
  rw [← hkp]
  simp only [Nat.zero_add, decide_eq_true_eq]
  omega

/-- C17: for sequences `A` and `B` of exactly `Capacity` items: from the new list, adding
all of `A` succeeds and fills the list; `clear()` then gives count `0` and `isEmpty()`;
adding all of `B` then succeeds for every item and ends with `isFull()`, and the final state
is the array `B` with count `Capacity`, whatever `A` was: indexing, `contains` and `indexOf`
see `B` only. -/
theorem fill_clear_fill [DecidableEq α] (destroy : α → α) (dflt : α) (cap fuel : Nat)
    (A B : List α) (hcap : cap < 128) (hA : A.length = cap) (hB : B.length = cap)
    (hfuel : cap ≤ fuel) :
    ∃ (trA : List (Bool × Nat)) (s1 s2 : ListState α) (trB : List (Bool × Nat))
      (s3 : ListState α),
      addAll cap (new cap dflt) A = Except.ok (trA, s1) ∧
      (∀ p, p ∈ trA → p.1 = true) ∧ isFull cap s1 = true ∧
      clear destroy fuel s1 = Except.ok s2 ∧ getCount s2 = 0 ∧ isEmpty s2 = true ∧
      addAll cap s2 B = Except.ok (trB, s3) ∧
      trB.length = cap ∧ (∀ p, p ∈ trB → p.1 = true) ∧ isFull cap s3 = true ∧
      s3 = ⟨B, cap⟩ ∧ live s3 = B ∧
      (∀ j, index s3 j = readAt B j) ∧
      (∀ x, contains fuel s3 x = Except.ok (decide (x ∈ B))) ∧
      (∀ x, x ∉ B → indexOf fuel s3 x = Except.ok (-1)) ∧
      (∀ (x : α) (k : Nat), B[k]? = some x → (∀ j, j < k → B[j]? ≠ some x) →
        indexOf fuel s3 x = Except.ok (k : Int)) := by
  obtain ⟨s1, hrunA, hn1, hl1, _⟩ :=
    addAll_spec cap hcap A (new cap dflt) (by simp [new]) (by simp [new])
  have hn1c : s1.next = cap := by
    have h0 : (new cap dflt).next = 0 := rfl
    rw [h0] at hn1
    omega
  obtain ⟨r, hclear, hrlen, _⟩ := clear_spec destroy cap fuel s1 hcap hl1 (by omega) (by omega)
  obtain ⟨s3, hrunB, hn3, hl3, hlive3⟩ :=
    addAll_spec cap hcap B ⟨r, 0⟩ (by simp only; omega) (Nat.zero_le _)
  have hn3c : s3.next = cap := by
    simp only at hn3
    omega
  have hliveB : live s3 = B := by
    rw [hlive3]
    simp [live, ← hB]
  have hitems : s3.items = B := by
    have h := hliveB
    simp only [live] at h
    rw [hn3c, ← hl3, List.take_length] at h
    exact h
  have hs3 : s3 = ⟨B, cap⟩ := by
    cases s3
    simp only at hitems hn3c
    rw [hitems, hn3c]
  have hfullA : isFull cap s1 = true := (isFull_iff cap s1 hcap).mpr hn1c
  have hfullB : isFull cap s3 = true := (isFull_iff cap s3 hcap).mpr hn3c
  refine ⟨_, s1, ⟨r, 0⟩, _, s3, hrunA, ?_, hfullA, hclear, rfl, rfl, hrunB, ?_, ?_, hfullB,
    hs3, hliveB, ?_, ?_, ?_, ?_⟩
  · intro p hp
    exact addAll_trace_all_true cap A.length (by omega) p hp
  · simp [hB]
  · intro p hp
    exact addAll_trace_all_true cap B.length (by omega) p hp
  · intro j
    simp [index, hitems]
  · intro x
    rw [contains_eq_decide_mem cap fuel s3 x hcap hl3 (by omega) (by omega), hliveB]
  · intro x hx
    apply indexOf_of_absent cap fuel s3 x hcap hl3 (by omega) (by omega)
    intro j hj h
    apply hx
    rw [← hliveB]
    exact (mem_live_iff s3 x).mpr ⟨j, hj, h⟩
  · intro x k hk hfirst
    have hklen : k < B.length := by
      by_contra hcon
      rw [List.getElem?_eq_none (by omega)] at hk
      exact Option.noConfusion hk
    apply indexOf_of_first cap fuel s3 x k hcap hl3 (by omega) (by omega) (by omega)
    · rw [hitems]
      exact hk
    · intro j hj
      rw [hitems]
      exact hfirst j hj

theorem fill_clear_fill_witness :
    ∃ (trA : List (Bool × Nat)) (s1 s2 : ListState Nat) (trB : List (Bool × Nat))
      (s3 : ListState Nat),
      addAll 2 (new 2 0) [5, 6] = Except.ok (trA, s1) ∧
      (∀ p, p ∈ trA → p.1 = true) ∧ isFull 2 s1 = true ∧
      clear id 2 s1 = Except.ok s2 ∧ getCount s2 = 0 ∧ isEmpty s2 = true ∧
      addAll 2 s2 [8, 9] = Except.ok (trB, s3) ∧
      trB.length = 2 ∧ (∀ p, p ∈ trB → p.1 = true) ∧ isFull 2 s3 = true ∧
      s3 = ⟨[8, 9], 2⟩ ∧ live s3 = [8, 9] ∧
      (∀ j, index s3 j = readAt [8, 9] j) ∧
      (∀ x, contains 2 s3 x = Except.ok (decide (x ∈ [8, 9]))) ∧
      (∀ x, x ∉ [8, 9] → indexOf 2 s3 x = Except.ok (-1)) ∧
      (∀ (x : Nat) (k : Nat), [8, 9][k]? = some x → (∀ j, j < k → [8, 9][j]? ≠ some x) →
        indexOf 2 s3 x = Except.ok (k : Int)) :=
  fill_clear_fill id 0 2 2 [5, 6] [8, 9] (by decide) rfl rfl (by decide)

/-! ## The bound `count <= Capacity` -/

end LoveRush
